import Mathlib

/-!
Verification development for the metadata projection engine of
ckanext-oaipmh-server (`ckanext/oaipmh/importformats.py`).

The module's core is a flat, path-keyed metadata dictionary (a Python
dict from string keys to scalar values) transformed in place by
`copy_element` (the recursive path copier), `nrd_metadata_reader`
(an ordered rule table plus a best-effort rights post-processing pass)
and `ExceptReturn` (an exception-to-fallback wrapper).

The embedding below models the dictionary as an insertion-ordered
association list (matching Python dict semantics: assignment to an
existing key replaces its value in place, assignment to a fresh key
appends), scalar values as an inductive `Val` (string, integer count,
or Python `None`), and the recursion of `copy_element` with an explicit
fuel parameter: the Python function has no depth guard and genuinely
fails to terminate on self-aliasing inputs, so a total Lean function
must make fuel exhaustion an explicit outcome (`CErr.fuelOut`);
`CErr.typeErr` models the `TypeError` that `range(count)` raises on a
non-integer truthy count.  XML parsing of the rights markup is done by
the external lxml library, out of scope per the spec; the rights pass
is therefore parameterised by an abstract parse function producing the
attribute list and child texts that the code reads.
-/

/-- A scalar value in the flat metadata record: element text, an
integer (used for `.count` entries), or Python `None` (the text of an
empty XML element). -/
inductive Val : Type where
  | str (s : String)
  | num (n : Nat)
  | null
deriving DecidableEq, Repr

/-- The flat metadata record: a Python dict from path keys to scalar
values, modeled as an insertion-ordered association list. -/
abbrev Record := List (String × Val)

/-- Dictionary lookup: the value at the first matching key. -/
def lookup : Record → String → Option Val
  | [], _ => none
  | (k', v) :: t, k => if k' = k then some v else lookup t k

/-- Dictionary assignment `md[k] = v`: replace the value at an existing
key in place, or append a fresh key at the end (Python dict
insertion-order semantics). -/
def dset : Record → String → Val → Record
  | [], k, v => [(k, v)]
  | (k', v') :: t, k, v => if k' = k then (k, v) :: t else (k', v') :: dset t k v

/-- Apply a list of writes (assignments) in order. -/
def applyW (r : Record) (w : List (String × Val)) : Record :=
  w.foldl (fun r kv => dset r kv.1 kv.2) r

/-- The value the write list `w` leaves at key `k`, if `w` writes `k`
at all (later writes win). -/
def wl : List (String × Val) → String → Option Val
  | [], _ => none
  | kv :: t, k =>
    match wl t k with
    | some v => some v
    | none => if kv.1 = k then some kv.2 else none

/-- Left-biased choice on optional values. -/
def olay : Option Val → Option Val → Option Val
  | some v, _ => some v
  | none, b => b

/-- Extensional equality of records: the same map in the sense of
Python dict equality. -/
def req (r₁ r₂ : Record) : Prop := ∀ k, lookup r₁ k = lookup r₂ k

theorem lookup_set_self (r : Record) (k : String) (v : Val) :
    lookup (dset r k v) k = some v := by
  induction r with
  | nil => simp [dset, lookup]
  | cons kv t ih =>
    obtain ⟨k', v'⟩ := kv
    by_cases h : k' = k
    · simp [dset, h, lookup]
    · simp [dset, h, lookup, ih]

theorem lookup_set_other (r : Record) (k k' : String) (v : Val) (h : k ≠ k') :
    lookup (dset r k v) k' = lookup r k' := by
  induction r with
  | nil => simp [dset, lookup, h]
  | cons kv t ih =>
    obtain ⟨k₀, v₀⟩ := kv
    by_cases h₀ : k₀ = k
    · subst h₀
      simp [dset, lookup, h]
    · simp [dset, h₀, lookup, ih]

theorem lookup_applyW (r : Record) (w : List (String × Val)) (k : String) :
    lookup (applyW r w) k = olay (wl w k) (lookup r k) := by
  induction w generalizing r with
  | nil => simp [applyW, wl, olay]
  | cons kv t ih =>
    show lookup (applyW (dset r kv.1 kv.2) t) k = _
    rw [ih]
    show _ = olay (match wl t k with
      | some v => some v
      | none => if kv.1 = k then some kv.2 else none) (lookup r k)
    cases hw : wl t k with
    | some v => simp [olay]
    | none =>
      by_cases hk : kv.1 = k
      · subst hk
        simp [olay, lookup_set_self]
      · simp [olay, hk, lookup_set_other _ _ _ _ hk]

theorem applyW_append (r : Record) (w₁ w₂ : List (String × Val)) :
    applyW r (w₁ ++ w₂) = applyW (applyW r w₁) w₂ := by
  simp [applyW, List.foldl_append]

theorem applyW_nil (r : Record) : applyW r [] = r := rfl

theorem applyW_single (r : Record) (k : String) (v : Val) :
    applyW r [(k, v)] = dset r k v := rfl

theorem wl_none_of_forall {w : List (String × Val)} {k : String}
    (h : ∀ kv ∈ w, kv.1 ≠ k) : wl w k = none := by
  induction w with
  | nil => rfl
  | cons kv t ih =>
    have ht : wl t k = none := ih (fun kv' h' => h kv' (List.mem_cons_of_mem _ h'))
    simp [wl, ht, h kv (List.mem_cons_self _ _)]

theorem lookup_applyW_of_none {r : Record} {w : List (String × Val)} {k : String}
    (h : wl w k = none) : lookup (applyW r w) k = lookup r k := by
  rw [lookup_applyW, h]; rfl

/-! ### String prefixes

Path keys are strings built by concatenation; the projection's frame
and independence properties are phrased via an executable prefix test
on the underlying character lists. -/

/-- Executable prefix test on character lists. -/
def lpre : List Char → List Char → Bool
  | [], _ => true
  | _ :: _, [] => false
  | a :: as, b :: bs => a = b && lpre as bs

/-- Prefix test on strings (`pre p k` : `p` is a prefix of `k`). -/
def pre (p k : String) : Bool := lpre p.data k.data

theorem lpre_refl (l : List Char) : lpre l l = true := by
  induction l with
  | nil => rfl
  | cons a t ih => simp [lpre, ih]

theorem lpre_append (l t : List Char) : lpre l (l ++ t) = true := by
  induction l with
  | nil => rfl
  | cons a l ih => simp [lpre, ih]

theorem lpre_iff_append {a b : List Char} : lpre a b = true ↔ ∃ t, b = a ++ t := by
  constructor
  · intro h
    induction a generalizing b with
    | nil => exact ⟨b, rfl⟩
    | cons x xs ih =>
      cases b with
      | nil => simp [lpre] at h
      | cons y ys =>
        simp [lpre] at h
        obtain ⟨rfl, h2⟩ := h
        obtain ⟨t, rfl⟩ := ih h2
        exact ⟨t, rfl⟩
  · rintro ⟨t, rfl⟩
    exact lpre_append a t

theorem lpre_trans {a b c : List Char} (h₁ : lpre a b = true) (h₂ : lpre b c = true) :
    lpre a c = true := by
  obtain ⟨t₁, rfl⟩ := lpre_iff_append.mp h₁
  obtain ⟨t₂, rfl⟩ := lpre_iff_append.mp h₂
  rw [List.append_assoc]
  exact lpre_append _ _

theorem lpre_length {a b : List Char} (h : lpre a b = true) : a.length ≤ b.length := by
  obtain ⟨t, rfl⟩ := lpre_iff_append.mp h
  simp

theorem lpre_append_cancel (a b c : List Char) : lpre (a ++ b) (a ++ c) = lpre b c := by
  induction a with
  | nil => rfl
  | cons x xs ih => simp [lpre, ih]

theorem lpre_comparable {a b c : List Char} (h₁ : lpre a c = true) (h₂ : lpre b c = true) :
    lpre a b = true ∨ lpre b a = true := by
  induction c generalizing a b with
  | nil =>
    cases a with
    | nil => exact Or.inl rfl
    | cons x xs => simp [lpre] at h₁
  | cons y ys ih =>
    cases a with
    | nil => exact Or.inl rfl
    | cons x xs =>
      cases b with
      | nil => exact Or.inr rfl
      | cons z zs =>
        simp [lpre] at h₁ h₂
        obtain ⟨rfl, h₁⟩ := h₁
        obtain ⟨rfl, h₂⟩ := h₂
        rcases ih h₁ h₂ with h | h
        · exact Or.inl (by simp [lpre, h])
        · exact Or.inr (by simp [lpre, h])

theorem pre_refl (s : String) : pre s s = true := lpre_refl _

theorem string_data_append (a b : String) : (a ++ b).data = a.data ++ b.data := rfl

theorem pre_append (a b : String) : pre a (a ++ b) = true := by
  rw [pre, string_data_append]; exact lpre_append _ _

theorem pre_trans {a b c : String} (h₁ : pre a b = true) (h₂ : pre b c = true) :
    pre a c = true := lpre_trans h₁ h₂

theorem pre_comparable {a b c : String} (h₁ : pre a c = true) (h₂ : pre b c = true) :
    pre a b = true ∨ pre b a = true := lpre_comparable h₁ h₂

/-- Prefix incomparability of two path keys: neither is a prefix of the
other, so their key subtrees are disjoint. -/
def incomp (s d : String) : Prop := pre s d = false ∧ pre d s = false

instance (s d : String) : Decidable (incomp s d) := by unfold incomp; infer_instance

theorem incomp_lift {s d : String} (h : incomp s d) (a b : String) :
    incomp (s ++ a) (d ++ b) := by
  constructor
  · by_contra hc
    have hc' : pre (s ++ a) (d ++ b) = true := by
      cases hx : pre (s ++ a) (d ++ b) with
      | true => rfl
      | false => exact absurd hx hc
    have hs : pre s (d ++ b) = true := pre_trans (pre_append s a) hc'
    have hd : pre d (d ++ b) = true := pre_append d b
    rcases pre_comparable hs hd with h' | h'
    · rw [h.1] at h'; exact Bool.noConfusion h'
    · rw [h.2] at h'; exact Bool.noConfusion h'
  · by_contra hc
    have hc' : pre (d ++ b) (s ++ a) = true := by
      cases hx : pre (d ++ b) (s ++ a) with
      | true => rfl
      | false => exact absurd hx hc
    have hd : pre d (s ++ a) = true := pre_trans (pre_append d b) hc'
    have hs : pre s (s ++ a) = true := pre_append s a
    rcases pre_comparable hd hs with h' | h'
    · rw [h.2] at h'; exact Bool.noConfusion h'
    · rw [h.1] at h'; exact Bool.noConfusion h'

/-- The shape of every key `copy_element` can write under destination
`d`: either `d` itself, or `d` extended by a suffix that starts with
`/` (language/attribute and structured sub-fields) or `.` (`.count`
and indexed instances). -/
def wkey (d k : String) : Bool :=
  pre d k &&
    (match k.data.drop d.data.length with
     | [] => true
     | c :: _ => c = '/' || c = '.')

theorem wkey_self (d : String) : wkey d d = true := by
  rw [wkey, pre_refl, Bool.true_and, List.drop_length]

theorem wkey_append {d t : String}
    (h : t.data = [] ∨ ∃ c cs, t.data = c :: cs ∧ (c = '/' ∨ c = '.')) :
    wkey d (d ++ t) = true := by
  have hd : (d ++ t).data.drop d.data.length = t.data := by
    rw [string_data_append]; exact List.drop_left _ _
  rcases h with h | ⟨c, cs, hc, hcs⟩
  · rw [wkey, pre_append, Bool.true_and, hd, h]
  · rw [wkey, pre_append, Bool.true_and, hd, hc]
    rcases hcs with rfl | rfl <;> simp

theorem wkey_pre {d k : String} (h : wkey d k = true) : pre d k = true := by
  simp [wkey] at h
  exact h.1

theorem wkey_trans {d d' k : String} (h₁ : wkey d d' = true) (h₂ : wkey d' k = true) :
    wkey d k = true := by
  have hp₁ : pre d d' = true := wkey_pre h₁
  have hp₂ : pre d' k = true := wkey_pre h₂
  obtain ⟨t, ht⟩ := lpre_iff_append.mp hp₁
  obtain ⟨u, hu⟩ := lpre_iff_append.mp hp₂
  have hpre : pre d k = true := pre_trans hp₁ hp₂
  rw [wkey, hpre, Bool.true_and]
  have hk : k.data.drop d.data.length = t ++ u := by
    rw [hu, ht, List.append_assoc]; exact List.drop_left _ _
  cases t with
  | nil =>
    -- d' has the same characters as d, so the suffix condition of h₂ transfers
    have hdk : k.data.drop d'.data.length = u := by rw [hu]; exact List.drop_left _ _
    have hlen : d'.data.length = d.data.length := by rw [ht]; simp
    rw [wkey, hp₂, Bool.true_and, hdk] at h₂
    rw [hk, List.nil_append]
    rw [hlen] at hdk
    exact h₂
  | cons c cs =>
    have hdd : d'.data.drop d.data.length = c :: cs := by rw [ht]; exact List.drop_left _ _
    rw [wkey, hp₁, Bool.true_and, hdd] at h₁
    rw [hk]
    simpa using h₁

theorem wkey_not_pre_of_incomp {s d k : String} (h : incomp s d)
    (hk : wkey d k = true) : pre s k = false := by
  by_contra hc
  have hc' : pre s k = true := by
    cases hx : pre s k with
    | true => rfl
    | false => exact absurd hx hc
  rcases pre_comparable hc' (wkey_pre hk) with h' | h'
  · rw [h.1] at h'; exact Bool.noConfusion h'
  · rw [h.2] at h'; exact Bool.noConfusion h'

/-! ### Decimal index strings

`copy_element` forms indexed keys with `'%s.%d' % (source, i)`; the
decimal rendering of the index is modeled explicitly so that its first
character is provably a digit. -/

/-- One decimal digit character. -/
def digCh (d : Nat) : Char := Char.ofNat (48 + d)

/-- Decimal digits with a structural fuel bound (`fuel = n` always
suffices, since `n / 10 < n` for `n ≥ 10`). -/
def natCharsAux : Nat → Nat → List Char
  | 0, n => [digCh (n % 10)]
  | fuel + 1, n => if n < 10 then [digCh n] else natCharsAux fuel (n / 10) ++ [digCh (n % 10)]

/-- Decimal digits of a natural number, most significant first. -/
def natChars (n : Nat) : List Char := natCharsAux n n

/-- Decimal rendering of an index, as used by `'%s.%d'`. -/
def natStr (n : Nat) : String := ⟨natChars n⟩

theorem digCh_isDigit {d : Nat} (h : d < 10) : (digCh d).isDigit = true := by
  interval_cases d <;> decide

theorem natCharsAux_head (fuel : Nat) :
    ∀ n, ∃ c cs, natCharsAux fuel n = c :: cs ∧ c.isDigit = true := by
  induction fuel with
  | zero =>
    intro n
    exact ⟨digCh (n % 10), [], rfl, digCh_isDigit (Nat.mod_lt n (by omega))⟩
  | succ fuel ih =>
    intro n
    by_cases h : n < 10
    · exact ⟨digCh n, [], by simp [natCharsAux, h], digCh_isDigit h⟩
    · obtain ⟨c, cs, hc, hd⟩ := ih (n / 10)
      refine ⟨c, cs ++ [digCh (n % 10)], ?_, hd⟩
      simp [natCharsAux, h, hc]

theorem natChars_head (n : Nat) :
    ∃ c cs, natChars n = c :: cs ∧ c.isDigit = true := natCharsAux_head n n

/-- The decimal rendering of an index never starts with a letter, so
`d ++ "." ++ natStr i` is never a prefix of `d ++ ".count"`. -/
theorem natStr_not_pre_count (d : String) (i : Nat) :
    pre (d ++ "." ++ natStr i) (d ++ ".count") = false := by
  obtain ⟨c, cs, hc, hd⟩ := natChars_head i
  have h1 : (d ++ "." ++ natStr i).data = d.data ++ '.' :: (c :: cs) := by
    rw [string_data_append, string_data_append]
    simp [natStr, hc]
  have h2 : (d ++ ".count").data = d.data ++ '.' :: ('c' :: "ount".data) := by
    rw [string_data_append]
  rw [pre, h1, h2]
  have : lpre (d.data ++ '.' :: (c :: cs)) (d.data ++ '.' :: 'c' :: "ount".data)
      = lpre ('.' :: c :: cs) ('.' :: 'c' :: "ount".data) := lpre_append_cancel _ _ _
  rw [this]
  have hcne : c ≠ 'c' := by
    intro hcc
    subst hcc
    simp [Char.isDigit] at hd
  simp [lpre, hcne]

/-! ### The path copier, attribute callbacks, rule table and rights pass -/

/-- Failure modes of the embedded `copy_element`: `fuelOut` marks
recursion the fuel bound cut off (the Python original recurses without
any guard and can overflow the stack), `typeErr` the `TypeError` that
`range(count)` raises when a truthy non-integer sits in a `.count`
entry. -/
inductive CErr : Type where
  | fuelOut
  | typeErr
deriving DecidableEq, Repr

/-- Result of a projection step. -/
abbrev CRes := Except CErr Record

/-- Sequencing of projection steps (failure propagates). -/
def andThen (x : CRes) (f : Record → CRes) : CRes :=
  match x with
  | .error e => .error e
  | .ok r => f r

/-- A callback as passed to `copy_element`: a function of
`(source, dest, record)` mutating the record (possibly failing, since
the module's callbacks recurse through `copy_element`). -/
abbrev CbF := String → String → Record → CRes

/-- Python truthiness of a scalar: `0`, `''` and `None` are falsy. -/
def falsy : Val → Bool
  | .num 0 => true
  | .str "" => true
  | .null => true
  | _ => false

/-- Run the optional callback exactly as `if callback: callback(...)`. -/
def cbRun : Option CbF → String → String → Record → CRes
  | none, _, _, r => .ok r
  | some f, s, d, r => f s d r

/-- The indexed loop of `copy_element`: for each index `i` in the list,
recurse on `'%s.%d' % (source, i)` → `'%s.%d' % (dest, i)`. -/
def copyLoop (step : String → String → Record → CRes) (s d : String) :
    List Nat → Record → CRes
  | [], r => .ok r
  | i :: is, r =>
    andThen (step (s ++ "." ++ natStr i) (d ++ "." ++ natStr i) r)
      (fun r' => copyLoop step s d is r')

/-- `copy_element(source, dest, md, callback)` with an explicit fuel
bound on the recursion depth.

If `source` is a key of `md`, copy its value to `dest`, recursively
project the `language`, `@lang`, `@xml:lang` siblings onto
`dest + "/language"` and `@rdf:resource` onto `dest` itself, invoke the
callback if given, and stop.  Otherwise read `source + ".count"`
(default 0); if falsy do nothing, if a positive integer write it to
`dest + ".count"` and recurse index by index, and if a truthy
non-integer fail like `range(count)` does. -/
def copy_element : Nat → Option CbF → String → String → Record → CRes
  | 0, _, _, _, _ => .error .fuelOut
  | n + 1, cb, s, d, r =>
    match lookup r s with
    | some v =>
      andThen (.ok (dset r d v)) (fun r0 =>
        andThen (copy_element n none (s ++ "/language") (d ++ "/language") r0) (fun r1 =>
          andThen (copy_element n none (s ++ "/@lang") (d ++ "/language") r1) (fun r2 =>
            andThen (copy_element n none (s ++ "/@xml:lang") (d ++ "/language") r2) (fun r3 =>
              andThen (copy_element n none (s ++ "/@rdf:resource") d r3) (fun r4 =>
                cbRun cb s d r4)))))
    | none =>
      match lookup r (s ++ ".count") with
      | none => .ok r
      | some c =>
        if falsy c then .ok r
        else
          match c with
          | .num cnt =>
            andThen (.ok (dset r (d ++ ".count") c)) (fun r0 =>
              copyLoop (copy_element n cb) s d (List.range cnt) r0)
          | _ => .error .typeErr

/-- `person_attrs`: callback copying person attributes (name, email,
phone) under the matched instance. -/
def person_attrs (n : Nat) : CbF := fun source dest result =>
  andThen (copy_element n none (source ++ "/foaf:name") (dest ++ "/name") result) (fun r1 =>
    andThen (copy_element n none (source ++ "/foaf:mbox") (dest ++ "/email") r1) (fun r2 =>
      copy_element n none (source ++ "/foaf:phone") (dest ++ "/phone") r2))

/-- `document_attrs`: callback copying document attributes. -/
def document_attrs (n : Nat) : CbF := fun source dest result =>
  andThen (copy_element n none (source ++ "/dct:title") (dest ++ "/title") result) (fun r1 =>
    andThen (copy_element n none (source ++ "/dct:identifier") dest r1) (fun r2 =>
      andThen (copy_element n none (source ++ "/dct:creator") (dest ++ "/creator.0/name") r2)
        (fun r3 =>
        andThen (copy_element n (some (person_attrs n)) (source ++ "/nrd:creator")
            (dest ++ "/creator") r3) (fun r4 =>
          copy_element n none (source ++ "/dct:description") (dest ++ "/description") r4))))

/-- `funding_attrs`: callback copying project funding attributes. -/
def funding_attrs (n : Nat) : CbF := fun source dest result =>
  andThen (copy_element n none (source ++ "/rev:arpfo:funds.0/arpfo:grantNumber")
      (dest ++ "/fundingNumber") result) (fun r1 =>
    copy_element n (some (person_attrs n)) (source ++ "/rev:arpfo:funds.0/rev:arpfo:provides")
      (dest ++ "/funder") r1)

/-- `file_attrs`: callback copying manifestation attributes. -/
def file_attrs (n : Nat) : CbF := fun source dest result =>
  andThen (copy_element n none (source ++ "/dcat:mediaType") (dest ++ "/mimetype") result)
    (fun r1 =>
    andThen (copy_element n none (source ++ "/fp:checksum.0/fp:checksumValue.0")
        (dest ++ "/checksum.0") r1) (fun r2 =>
      andThen (copy_element n none (source ++ "/fp:checksum.0/fp:generator.0")
          (dest ++ "/checksum.0/algorithm") r2) (fun r3 =>
        copy_element n none (source ++ "/dcat:byteSize") (dest ++ "/size") r3)))

/-- The ordered mapping table of `nrd_metadata_reader`. -/
def nrdRules (n : Nat) : List (String × String × Option CbF) :=
  [ ("dataset", "versionidentifier", none),
    ("dataset/nrd:continuityIdentifier", "continuityidentifier", none),
    ("dataset/rev:foaf:primaryTopic.0/nrd:metadataIdentifier", "metadata/identifier", none),
    ("dataset/rev:foaf:primaryTopic.0/nrd:metadataModified", "metadata/modified", none),
    ("dataset/dct:title", "title", none),
    ("dataset/nrd:modified", "modified", none),
    ("dataset/nrd:rights", "rights", none),
    ("dataset/nrd:language", "language", none),
    ("dataset/nrd:owner", "owner", some (person_attrs n)),
    ("dataset/nrd:creator", "creator", some (person_attrs n)),
    ("dataset/nrd:distributor", "distributor", some (person_attrs n)),
    ("dataset/nrd:contributor", "contributor", some (person_attrs n)),
    ("dataset/nrd:subject", "subject", none),
    ("dataset/nrd:producerProject", "project", some (funding_attrs n)),
    ("dataset/dct:isPartOf", "collection", some (document_attrs n)),
    ("dataset/dct:requires", "requires", none),
    ("dataset/nrd:discipline", "discipline", none),
    ("dataset/nrd:temporal", "temporalcoverage", none),
    ("dataset/nrd:spatial", "spatialcoverage", none),
    ("dataset/nrd:manifestation", "resource", some (file_attrs n)),
    ("dataset/nrd:observationMatrix", "variables", none),
    ("dataset/nrd:usedByPublication", "publication", some (document_attrs n)),
    ("dataset/dct:description", "description", none) ]

/-- Apply `copy_element` for every rule in table order. -/
def runRules (n : Nat) : List (String × String × Option CbF) → Record → CRes
  | [], r => .ok r
  | (s, d, cb) :: rest, r =>
    andThen (copy_element n cb s d r) (fun r' => runRules n rest r')

/-- The structure the rights post-processing reads off the parsed
rights markup: the attribute list of the root element and the text of
each child (`None` texts allowed). -/
structure XmlE : Type where
  attrib : List (String × String)
  children : List (Option String)
deriving DecidableEq

/-- Attribute access `element.attrib[name]`. -/
def alookup : List (String × String) → String → Option String
  | [], _ => none
  | (k', v) :: t, k => if k' = k then some v else alookup t k

/-- An lxml element text as a record value (`None` becomes `null`). -/
def optStr : Option String → Val
  | none => .null
  | some s => .str s

/-- ASCII lowering of one character, as `str.lower()` does on the
category tokens. -/
def lowerCh (c : Char) : Char :=
  if 'A' ≤ c ∧ c ≤ 'Z' then Char.ofNat (c.toNat + 32) else c

/-- `str.lower()` on a category token. -/
def strLower (s : String) : String := ⟨s.data.map lowerCh⟩

/-- The writes the rights post-processing pass performs, computed from
the value at key `rights`.  The `try` body assigns `rightsclass` and
then possibly one of `license`/`accessURL`; any failure along the way
(`rights` missing, unparsable markup, missing `RIGHTSCATEGORY`,
missing first child) is swallowed by the bare `except`, keeping the
assignments already made. -/
def rightsWrites (parse : Val → Option XmlE) : Option Val → List (String × Val)
  | none => []
  | some v =>
    match parse v with
    | none => []
    | some e =>
      match alookup e.attrib "RIGHTSCATEGORY" with
      | none => []
      | some cat =>
        let rightsclass := strLower cat
        if rightsclass = "licensed" then
          match e.children.head? with
          | none => [("rightsclass", .str rightsclass)]
          | some t => [("rightsclass", .str rightsclass), ("license", optStr t)]
        else if rightsclass = "contractual" then
          match e.children.head? with
          | none => [("rightsclass", .str rightsclass)]
          | some t => [("rightsclass", .str rightsclass), ("accessURL", optStr t)]
        else [("rightsclass", .str rightsclass)]

/-- The rights post-processing pass of `nrd_metadata_reader`
(lines 150-159): best-effort, never raises. -/
def rights_post (parse : Val → Option XmlE) (r : Record) : Record :=
  applyW r (rightsWrites parse (lookup r "rights"))

/-- `nrd_metadata_reader`: the full rule-table pass followed by the
rights post-processing pass, on the flat record produced by the (out
of scope) RDF reader.  `parse` abstracts `lxml.etree.XML`; `n` is the
fuel bound for the path copier's recursion. -/
def nrd_metadata_reader (parse : Val → Option XmlE) (n : Nat) (r : Record) : CRes :=
  andThen (runRules n (nrdRules n) r) (fun r1 => .ok (rights_post parse r1))

/-- `ExceptReturn(exception, returns)`: wraps a call so that an
exception matching the given kind is logged and replaced by the
fallback value; a normal result is passed through unchanged.
Exceptions of type `E` are modeled explicitly, `excMatch` playing the
role of the `except exception` instance test. -/
def ExceptReturn {E A B : Type} (excMatch : E → Bool) (returns : A)
    (f : B → Except E A) : B → Except E A := fun x =>
  match f x with
  | .ok a => .ok a
  | .error e => if excMatch e then .ok returns else .error e
/-! ### Branch equations for the path copier -/

theorem str_append_assoc (a b c : String) : a ++ b ++ c = a ++ (b ++ c) := by
  cases a; cases b; cases c
  apply congrArg String.mk
  exact List.append_assoc _ _ _

theorem copy_element_zero (cb : Option CbF) (s d : String) (r : Record) :
    copy_element 0 cb s d r = .error .fuelOut := rfl

theorem copy_element_scalar {n : Nat} {cb : Option CbF} {s d : String} {r : Record} {v : Val}
    (h : lookup r s = some v) :
    copy_element (n + 1) cb s d r =
      andThen (copy_element n none (s ++ "/language") (d ++ "/language") (dset r d v)) (fun r1 =>
        andThen (copy_element n none (s ++ "/@lang") (d ++ "/language") r1) (fun r2 =>
          andThen (copy_element n none (s ++ "/@xml:lang") (d ++ "/language") r2) (fun r3 =>
            andThen (copy_element n none (s ++ "/@rdf:resource") d r3) (fun r4 =>
              cbRun cb s d r4)))) := by
  rw [copy_element, h]
  rfl

theorem copy_element_absent {n : Nat} {cb : Option CbF} {s d : String} {r : Record}
    (h1 : lookup r s = none) (h2 : lookup r (s ++ ".count") = none) :
    copy_element (n + 1) cb s d r = .ok r := by
  rw [copy_element, h1, h2]

theorem copy_element_falsy {n : Nat} {cb : Option CbF} {s d : String} {r : Record} {c : Val}
    (h1 : lookup r s = none) (h2 : lookup r (s ++ ".count") = some c)
    (h3 : falsy c = true) :
    copy_element (n + 1) cb s d r = .ok r := by
  rw [copy_element, h1, h2]
  simp [h3]

theorem copy_element_count {n : Nat} {cb : Option CbF} {s d : String} {r : Record} {cnt : Nat}
    (h1 : lookup r s = none) (h2 : lookup r (s ++ ".count") = some (Val.num cnt))
    (h3 : cnt ≠ 0) :
    copy_element (n + 1) cb s d r =
      copyLoop (copy_element n cb) s d (List.range cnt)
        (dset r (d ++ ".count") (Val.num cnt)) := by
  rw [copy_element, h1, h2]
  have hf : falsy (Val.num cnt) = false := by
    cases cnt with
    | zero => exact absurd rfl h3
    | succ m => rfl
  simp [hf]
  rfl

theorem copy_element_tyerr {n : Nat} {cb : Option CbF} {s d : String} {r : Record} {c : Val}
    (h1 : lookup r s = none) (h2 : lookup r (s ++ ".count") = some c)
    (h3 : falsy c = false) (h4 : ∀ cnt, c ≠ Val.num cnt) :
    copy_element (n + 1) cb s d r = .error .typeErr := by
  cases c with
  | num cnt => exact absurd rfl (h4 cnt)
  | str t =>
    rw [copy_element, h1, h2]
    simp [h3]
  | null =>
    simp [falsy] at h3

/-! ### Inversion and monotonicity -/

theorem andThen_ok {x : CRes} {f : Record → CRes} {r' : Record}
    (h : andThen x f = .ok r') : ∃ rm, x = .ok rm ∧ f rm = .ok r' := by
  cases x with
  | error e => exact absurd h (by simp [andThen])
  | ok rm => exact ⟨rm, rfl, h⟩

/-- Presence of keys only ever grows: no operation deletes a key. -/
def presMono (r r' : Record) : Prop :=
  ∀ k, (lookup r k).isSome = true → (lookup r' k).isSome = true

theorem presMono_refl (r : Record) : presMono r r := fun _ h => h

theorem presMono_trans {r₁ r₂ r₃ : Record} (h₁ : presMono r₁ r₂) (h₂ : presMono r₂ r₃) :
    presMono r₁ r₃ := fun k h => h₂ k (h₁ k h)

theorem presMono_dset (r : Record) (k : String) (v : Val) : presMono r (dset r k v) := by
  intro k' h
  by_cases hk : k = k'
  · subst hk; rw [lookup_set_self]; rfl
  · rwa [lookup_set_other _ _ _ _ hk]

/-- The callback never deletes keys. -/
def cbMono : Option CbF → Prop
  | none => True
  | some f => ∀ s d r r', f s d r = .ok r' → presMono r r'

theorem copyLoop_mono {step : String → String → Record → CRes} {s d : String}
    (hstep : ∀ s' d' r r', step s' d' r = .ok r' → presMono r r') :
    ∀ (is : List Nat) (r r' : Record), copyLoop step s d is r = .ok r' → presMono r r' := by
  intro is
  induction is with
  | nil =>
    intro r r' h
    cases h
    exact presMono_refl _
  | cons i is ih =>
    intro r r' h
    obtain ⟨rm, h1, h2⟩ := andThen_ok h
    exact presMono_trans (hstep _ _ _ _ h1) (ih _ _ h2)

theorem copy_element_mono :
    ∀ (n : Nat) (cb : Option CbF) (s d : String) (r r' : Record), cbMono cb →
      copy_element n cb s d r = .ok r' → presMono r r' := by
  intro n
  induction n with
  | zero => intro cb s d r r' _ h; exact absurd h (by simp [copy_element])
  | succ n ih =>
    intro cb s d r r' hcb h
    cases hls : lookup r s with
    | some v =>
      rw [copy_element_scalar hls] at h
      obtain ⟨r1, h1, h⟩ := andThen_ok h
      obtain ⟨r2, h2, h⟩ := andThen_ok h
      obtain ⟨r3, h3, h⟩ := andThen_ok h
      obtain ⟨r4, h4, h⟩ := andThen_ok h
      have m0 : presMono r (dset r d v) := presMono_dset r d v
      have m1 := ih none _ _ _ _ trivial h1
      have m2 := ih none _ _ _ _ trivial h2
      have m3 := ih none _ _ _ _ trivial h3
      have m4 := ih none _ _ _ _ trivial h4
      have m5 : presMono r4 r' := by
        cases cb with
        | none => cases h; exact presMono_refl _
        | some f => exact hcb _ _ _ _ h
      exact presMono_trans m0 (presMono_trans m1 (presMono_trans m2
        (presMono_trans m3 (presMono_trans m4 m5))))
    | none =>
      cases hlc : lookup r (s ++ ".count") with
      | none =>
        rw [copy_element_absent hls hlc] at h
        cases h
        exact presMono_refl _
      | some c =>
        by_cases hf : falsy c = true
        · rw [copy_element_falsy hls hlc hf] at h
          cases h
          exact presMono_refl _
        · cases c with
          | str cs =>
            rw [copy_element_tyerr hls hlc (by simpa using hf) (fun cnt h => by cases h)] at h
            exact absurd h (by simp)
          | null => exact absurd hf (by simp [falsy])
          | num cnt =>
            have hcnt : cnt ≠ 0 := by
              intro hc; subst hc; exact hf rfl
            rw [copy_element_count hls hlc hcnt] at h
            have mloop := copyLoop_mono (fun s' d' rr rr' hh => ih cb s' d' rr rr' hcb hh)
              (List.range cnt) _ _ h
            exact presMono_trans (presMono_dset r (d ++ ".count") (.num cnt)) mloop

/-! ### The frame property: all writes are destination-shaped -/

/-- All keys of a write list fit the destination shape `wkey d`. -/
def wkeysP (d : String) (w : List (String × Val)) : Prop :=
  ∀ kv ∈ w, wkey d kv.1 = true

/-- The callback's writes fit its destination shape. -/
def cbFrame : Option CbF → Prop
  | none => True
  | some f => ∀ s d r r', f s d r = .ok r' →
      ∃ w, wkeysP d w ∧ r' = applyW r w

theorem wkeysP_nil (d : String) : wkeysP d [] := by intro kv h; cases h

theorem wkeysP_append {d : String} {w₁ w₂ : List (String × Val)}
    (h₁ : wkeysP d w₁) (h₂ : wkeysP d w₂) : wkeysP d (w₁ ++ w₂) := by
  intro kv h
  rcases List.mem_append.mp h with h | h
  · exact h₁ kv h
  · exact h₂ kv h

theorem wkeysP_weaken {d d' : String} {w : List (String × Val)}
    (hd : wkey d d' = true) (h : wkeysP d' w) : wkeysP d w :=
  fun kv hkv => wkey_trans hd (h kv hkv)

theorem wkey_lang (d : String) : wkey d (d ++ "/language") = true :=
  wkey_append (Or.inr ⟨'/', "language".data, rfl, Or.inl rfl⟩)

theorem wkey_count (d : String) : wkey d (d ++ ".count") = true :=
  wkey_append (Or.inr ⟨'.', "count".data, rfl, Or.inr rfl⟩)

theorem wkey_idx (d : String) (i : Nat) : wkey d (d ++ "." ++ natStr i) = true := by
  rw [str_append_assoc]
  exact wkey_append (Or.inr ⟨'.', (natStr i).data, rfl, Or.inr rfl⟩)

theorem copyLoop_frame {step : String → String → Record → CRes} {s d : String}
    (hstep : ∀ i r r', step (s ++ "." ++ natStr i) (d ++ "." ++ natStr i) r = .ok r' →
      ∃ w, wkeysP (d ++ "." ++ natStr i) w ∧ r' = applyW r w) :
    ∀ (is : List Nat) (r r' : Record), copyLoop step s d is r = .ok r' →
      ∃ w, wkeysP d w ∧ r' = applyW r w := by
  intro is
  induction is with
  | nil =>
    intro r r' h
    cases h
    exact ⟨[], wkeysP_nil d, rfl⟩
  | cons i is ih =>
    intro r r' h
    obtain ⟨rm, h1, h2⟩ := andThen_ok h
    obtain ⟨w₁, hw₁, e₁⟩ := hstep i _ _ h1
    obtain ⟨w₂, hw₂, e₂⟩ := ih _ _ h2
    refine ⟨w₁ ++ w₂, wkeysP_append (wkeysP_weaken (wkey_idx d i) hw₁) hw₂, ?_⟩
    rw [applyW_append, ← e₁, ← e₂]

theorem copy_element_frame :
    ∀ (n : Nat) (cb : Option CbF) (s d : String) (r r' : Record), cbFrame cb →
      copy_element n cb s d r = .ok r' → ∃ w, wkeysP d w ∧ r' = applyW r w := by
  intro n
  induction n with
  | zero => intro cb s d r r' _ h; exact absurd h (by simp [copy_element])
  | succ n ih =>
    intro cb s d r r' hcb h
    cases hls : lookup r s with
    | some v =>
      rw [copy_element_scalar hls] at h
      obtain ⟨r1, h1, h⟩ := andThen_ok h
      obtain ⟨r2, h2, h⟩ := andThen_ok h
      obtain ⟨r3, h3, h⟩ := andThen_ok h
      obtain ⟨r4, h4, h⟩ := andThen_ok h
      have hcbw : ∃ w₅, wkeysP d w₅ ∧ r' = applyW r4 w₅ := by
        cases cb with
        | none => cases h; exact ⟨[], wkeysP_nil d, rfl⟩
        | some f => exact hcb _ _ _ _ h
      obtain ⟨w₅, hw₅, e₅⟩ := hcbw
      obtain ⟨w₁, hw₁, e₁⟩ := ih none _ _ _ _ trivial h1
      obtain ⟨w₂, hw₂, e₂⟩ := ih none _ _ _ _ trivial h2
      obtain ⟨w₃, hw₃, e₃⟩ := ih none _ _ _ _ trivial h3
      obtain ⟨w₄, hw₄, e₄⟩ := ih none _ _ _ _ trivial h4
      refine ⟨(d, v) :: (w₁ ++ (w₂ ++ (w₃ ++ (w₄ ++ w₅)))), ?_, ?_⟩
      · intro kv hkv
        rcases List.mem_cons.mp hkv with rfl | hkv
        · exact wkey_self d
        rcases List.mem_append.mp hkv with hkv | hkv
        · exact wkeysP_weaken (wkey_lang d) hw₁ kv hkv
        rcases List.mem_append.mp hkv with hkv | hkv
        · exact wkeysP_weaken (wkey_lang d) hw₂ kv hkv
        rcases List.mem_append.mp hkv with hkv | hkv
        · exact wkeysP_weaken (wkey_lang d) hw₃ kv hkv
        rcases List.mem_append.mp hkv with hkv | hkv
        · exact hw₄ kv hkv
        · exact hw₅ kv hkv
      · have hstep : applyW r ((d, v) :: (w₁ ++ (w₂ ++ (w₃ ++ (w₄ ++ w₅))))) =
            applyW (dset r d v) (w₁ ++ (w₂ ++ (w₃ ++ (w₄ ++ w₅)))) := rfl
        rw [hstep, applyW_append, ← e₁, applyW_append, ← e₂, applyW_append, ← e₃,
          applyW_append, ← e₄, ← e₅]
    | none =>
      cases hlc : lookup r (s ++ ".count") with
      | none =>
        rw [copy_element_absent hls hlc] at h
        cases h
        exact ⟨[], wkeysP_nil d, rfl⟩
      | some c =>
        by_cases hf : falsy c = true
        · rw [copy_element_falsy hls hlc hf] at h
          cases h
          exact ⟨[], wkeysP_nil d, rfl⟩
        · cases c with
          | str cs =>
            rw [copy_element_tyerr hls hlc (by simpa using hf) (fun cnt h => by cases h)] at h
            exact absurd h (by simp)
          | null => exact absurd hf (by simp [falsy])
          | num cnt =>
            have hcnt : cnt ≠ 0 := by
              intro hc; subst hc; exact hf rfl
            rw [copy_element_count hls hlc hcnt] at h
            obtain ⟨wloop, hwl, el⟩ := copyLoop_frame
              (fun i rr rr' hh => ih cb _ _ rr rr' hcb hh) (List.range cnt) _ _ h
            refine ⟨(d ++ ".count", Val.num cnt) :: wloop, ?_, ?_⟩
            · intro kv hkv
              rcases List.mem_cons.mp hkv with rfl | hkv
              · exact wkey_count d
              · exact hwl kv hkv
            · exact el

/-! ### Divergence of the path copier on self-aliasing input -/

/-- Whenever `source` is a present key, copying it onto
`source + "/language"` feeds the recursion forever: the write made by
each level makes the next level's source present, so every fuel bound
is exhausted.  This is the Lean image of the Python stack overflow. -/
theorem copy_element_diverges_on_alias (n : Nat) :
    ∀ (s : String) (v : Val) (r : Record), lookup r s = some v →
      copy_element n none s (s ++ "/language") r = .error .fuelOut := by
  induction n with
  | zero => intro s v r _; rfl
  | succ n ih =>
    intro s v r h
    rw [copy_element_scalar h]
    have hx := ih (s ++ "/language") v (dset r (s ++ "/language") v)
      (lookup_set_self r (s ++ "/language") v)
    rw [hx]
    rfl

/-- Claim C7: the claim states that the Path Copier enforces an
explicit maximum recursion depth and per-field count, failing with a
`MalformedRecordError` on records exceeding them.  The code has no
such guard and no `MalformedRecordError` exists anywhere in the
module: on the self-aliasing call
`copy_element('a', 'a/language', {'a': 'x'})` the recursion never
terminates (every fuel bound in the model is exhausted), instead of
failing with a typed error. -/
theorem c7_no_guard_unbounded_recursion (n : Nat) :
    copy_element n none "a" "a/language" [("a", Val.str "x")] = .error .fuelOut :=
  copy_element_diverges_on_alias n "a" (Val.str "x") [("a", Val.str "x")] rfl

/-- Claim C8: when `source` is not a scalar key and `source + ".count"`
is absent or equal to 0, `copy_element` is a silent no-op: no
exception, no destination key, the record is returned completely
unchanged, identically in both cases. -/
theorem c8_zero_absent_noop (n : Nat) (cb : Option CbF) (s d : String) (r : Record)
    (hs : lookup r s = none)
    (hc : lookup r (s ++ ".count") = none ∨ lookup r (s ++ ".count") = some (Val.num 0)) :
    copy_element (n + 1) cb s d r = .ok r := by
  rcases hc with hc | hc
  · exact copy_element_absent hs hc
  · exact copy_element_falsy hs hc rfl

/-- Witness for C8 at a concrete record, covering both the absent-count
and the zero-count case. -/
theorem c8_witness :
    lookup [("z", Val.str "k")] "s" = none ∧
    lookup [("z", Val.str "k")] "s.count" = none ∧
    copy_element 1 none "s" "d" [("z", Val.str "k")] = .ok [("z", Val.str "k")] ∧
    lookup [("s.count", Val.num 0)] "s" = none ∧
    lookup [("s.count", Val.num 0)] "s.count" = some (Val.num 0) ∧
    copy_element 1 none "s" "d" [("s.count", Val.num 0)] = .ok [("s.count", Val.num 0)] :=
  ⟨by decide, by decide,
    c8_zero_absent_noop 0 none "s" "d" [("z", Val.str "k")] (by decide) (Or.inl (by decide)),
    by decide, by decide,
    c8_zero_absent_noop 0 none "s" "d" [("s.count", Val.num 0)] (by decide)
      (Or.inr (by decide))⟩

/-- Claim C9: the fallback wrapper satisfies the guard contract: a
call raising an exception matching the wrapped kind yields the
fallback value, a normal result is passed through unchanged (and, in
addition, a non-matching exception propagates). -/
theorem c9_except_return_guard {E A B : Type} (excMatch : E → Bool) (ret : A)
    (f : B → Except E A) (x : B) :
    (∀ e, f x = .error e → excMatch e = true → ExceptReturn excMatch ret f x = .ok ret) ∧
    (∀ a, f x = .ok a → ExceptReturn excMatch ret f x = .ok a) ∧
    (∀ e, f x = .error e → excMatch e = false → ExceptReturn excMatch ret f x = .error e) := by
  refine ⟨fun e he hm => ?_, fun a ha => ?_, fun e he hm => ?_⟩
  · simp [ExceptReturn, he, hm]
  · rw [ExceptReturn, ha]
  · simp [ExceptReturn, he, hm]

/-- Witness for C9 at concrete calls: a matching failure substitutes
the fallback, a normal result passes through. -/
theorem c9_witness :
    ExceptReturn (fun e : Nat => e == 0) 42 (fun _ : Nat => (.error 0 : Except Nat Nat)) 5
      = .ok 42 ∧
    ExceptReturn (fun e : Nat => e == 0) 42 (fun y : Nat => (.ok y : Except Nat Nat)) 7
      = .ok 7 :=
  ⟨(c9_except_return_guard (fun e : Nat => e == 0) 42
      (fun _ : Nat => (.error 0 : Except Nat Nat)) 5).1 0 rfl rfl,
    (c9_except_return_guard (fun e : Nat => e == 0) 42
      (fun y : Nat => (.ok y : Except Nat Nat)) 7).2.1 7 rfl⟩

/-- Claim C10: the frame property of the path copier without callback:
a successful run only creates or overwrites keys of destination shape
(`dest` itself or `dest` followed by `/`- or `.`-suffixes); every
other key keeps exactly its previous value, and no key is ever
deleted. -/
theorem c10_frame_property (n : Nat) (s d : String) (r r' : Record)
    (h : copy_element n none s d r = .ok r') :
    (∀ k, wkey d k = false → lookup r' k = lookup r k) ∧
    (∀ k, (lookup r k).isSome = true → (lookup r' k).isSome = true) := by
  obtain ⟨w, hw, rfl⟩ := copy_element_frame n none s d r r' trivial h
  constructor
  · intro k hk
    apply lookup_applyW_of_none
    apply wl_none_of_forall
    intro kv hkv hkk
    have hkw := hw kv hkv
    rw [hkk, hk] at hkw
    exact Bool.noConfusion hkw
  · intro k hk
    rw [lookup_applyW]
    cases hwl : wl w k with
    | some v => rfl
    | none => rwa [olay]

/-- Witness for C10 at a concrete run: the source-side key keeps its
value and nothing is deleted. -/
theorem c10_witness :
    copy_element 2 none "a" "b" [("a", Val.str "x")] = .ok [("a", Val.str "x"), ("b", Val.str "x")] ∧
    lookup [("a", Val.str "x"), ("b", Val.str "x")] "a" = lookup [("a", Val.str "x")] "a" := by
  refine ⟨rfl, ?_⟩
  exact (c10_frame_property 2 "a" "b" [("a", Val.str "x")]
    [("a", Val.str "x"), ("b", Val.str "x")] rfl).1 "a" (by decide)

/-! ### Concrete scenario records -/

/-- The spec's scenario input for the Schema Mapper (claim C1). -/
def rC1 : Record :=
  [("dataset/dct:title", .str "Sample"), ("dataset/nrd:creator.count", .num 2),
   ("dataset/nrd:creator.0/foaf:name", .str "Alice"),
   ("dataset/nrd:creator.1/foaf:name", .str "Bob")]

/-- The scenario input enriched with the creator element keys
themselves, as the RDF flattening reader would produce them. -/
def rC1full : Record :=
  rC1 ++ [("dataset/nrd:creator.0", .str ""), ("dataset/nrd:creator.1", .str "")]

/-- Claim C1 counterexample: on the literal scenario record the
rule-table pass produces only `title` and `creator.count`; the claimed
entry `creator.0/name = "Alice"` is not produced, because the person
callback only fires when the creator instance key itself
(`dataset/nrd:creator.0`) is present, and the scenario record lacks
it. -/
theorem c1_counterexample :
    nrd_metadata_reader (fun _ => none) 8 rC1 =
      .ok (rC1 ++ [("title", Val.str "Sample"), ("creator.count", Val.num 2)]) ∧
    lookup (rC1 ++ [("title", Val.str "Sample"), ("creator.count", Val.num 2)])
      "creator.0/name" = none := by
  refine ⟨?_, ?_⟩ <;> rfl

/-- Claim C1 amended: on the literal scenario record the reader yields
exactly the destination entries `title = "Sample"` and
`creator.count = 2`; with the creator element keys present (as an
actual flattened record would have them) all four claimed destination
entries appear, aligned index by index. -/
theorem c1_amended_scenario (parse : Val → Option XmlE) :
    nrd_metadata_reader parse 8 rC1 =
      .ok (rC1 ++ [("title", Val.str "Sample"), ("creator.count", Val.num 2)]) ∧
    nrd_metadata_reader parse 8 rC1full =
      .ok (rC1full ++
        [("title", Val.str "Sample"), ("creator.count", Val.num 2),
         ("creator.0", Val.str ""), ("creator.0/name", Val.str "Alice"),
         ("creator.1", Val.str ""), ("creator.1/name", Val.str "Bob")]) := by
  refine ⟨?_, ?_⟩ <;> rfl

/-- A parse result with the rights category present but no child
elements: `rights.attrib['RIGHTSCATEGORY']` succeeds, `rights[0]`
raises `IndexError`. -/
def parseLicensedChildless : Val → Option XmlE :=
  fun _ => some ⟨[("RIGHTSCATEGORY", "LICENSED")], []⟩

/-- Claim C2 counterexample: a record whose rights value parses with
category `LICENSED` but has no first child fails the post-processing
parse at the `rights[0]` step, yet `rightsclass` ends up set (the
assignment happens before the failing access), contradicting the claim
that all three of `rightsclass`/`license`/`accessURL` are left unset
on any parse failure. -/
theorem c2_counterexample :
    parseLicensedChildless (Val.str "<rights/>") =
      some ⟨[("RIGHTSCATEGORY", "LICENSED")], []⟩ ∧
    nrd_metadata_reader parseLicensedChildless 8 [("rights", Val.str "<rights/>")] =
      .ok [("rights", Val.str "<rights/>"), ("rightsclass", Val.str "licensed")] ∧
    lookup [("rights", Val.str "<rights/>"), ("rightsclass", Val.str "licensed")]
      "rightsclass" = some (Val.str "licensed") := by
  refine ⟨?_, ?_, ?_⟩ <;> rfl

/-- Every write the rights pass makes goes to one of the three rights
keys. -/
theorem rightsWrites_keys (parse : Val → Option XmlE) (ov : Option Val) :
    ∀ kv ∈ rightsWrites parse ov,
      kv.1 = "rightsclass" ∨ kv.1 = "license" ∨ kv.1 = "accessURL" := by
  intro kv hkv
  cases ov with
  | none => cases hkv
  | some v =>
    cases hp : parse v with
    | none => simp [rightsWrites, hp] at hkv
    | some e =>
      cases ha : alookup e.attrib "RIGHTSCATEGORY" with
      | none => simp [rightsWrites, hp, ha] at hkv
      | some cat =>
        by_cases h1 : strLower cat = "licensed"
        · cases hc : e.children.head? with
          | none =>
            simp [rightsWrites, hp, ha, h1, hc] at hkv
            rw [hkv]
            exact Or.inl rfl
          | some t =>
            simp [rightsWrites, hp, ha, h1, hc] at hkv
            rcases hkv with rfl | rfl
            · exact Or.inl rfl
            · exact Or.inr (Or.inl rfl)
        · by_cases h2 : strLower cat = "contractual"
          · cases hc : e.children.head? with
            | none =>
              simp [rightsWrites, hp, ha, h1, h2, hc] at hkv
              rw [hkv]
              exact Or.inl rfl
            | some t =>
              simp [rightsWrites, hp, ha, h1, h2, hc] at hkv
              rcases hkv with rfl | rfl
              · exact Or.inl rfl
              · exact Or.inr (Or.inr rfl)
          · simp [rightsWrites, hp, ha, h1, h2] at hkv
            rw [hkv]
            exact Or.inl rfl

/-- Claim C2 amended: the rights post-processing pass never raises
(it is a total function on records); every key other than
`rightsclass`, `license`, `accessURL` is always left unchanged; and a
parse failure occurring before the category is read (`rights` key
missing, markup unparsable, or `RIGHTSCATEGORY` attribute missing)
leaves the record literally unchanged, so all three keys stay unset.
Only a failure at the first-child access, after the category was read,
leaves `rightsclass` behind (see the counterexample). -/
theorem c2_amended_rights_resilience (parse : Val → Option XmlE) (r : Record) :
    (∀ k, k ≠ "rightsclass" → k ≠ "license" → k ≠ "accessURL" →
      lookup (rights_post parse r) k = lookup r k) ∧
    (lookup r "rights" = none → rights_post parse r = r) ∧
    (∀ v, lookup r "rights" = some v → parse v = none → rights_post parse r = r) ∧
    (∀ v e, lookup r "rights" = some v → parse v = some e →
      alookup e.attrib "RIGHTSCATEGORY" = none → rights_post parse r = r) := by
  refine ⟨fun k h1 h2 h3 => ?_, fun h => ?_, fun v hv hp => ?_, fun v e hv hp ha => ?_⟩
  · rw [rights_post]
    apply lookup_applyW_of_none
    apply wl_none_of_forall
    intro kv hkv hkk
    rcases rightsWrites_keys parse (lookup r "rights") kv hkv with h | h | h
    · exact h1 (hkk ▸ h)
    · exact h2 (hkk ▸ h)
    · exact h3 (hkk ▸ h)
  · rw [rights_post, h]; rfl
  · rw [rights_post, hv]
    simp only [rightsWrites, hp]
    rfl
  · rw [rights_post, hv]
    simp only [rightsWrites, hp, ha]
    rfl

/-- Witness for C2 amended: a record whose rights value does not parse
is returned unchanged, and an unrelated key survives a successful
parse unchanged. -/
theorem c2_witness :
    rights_post (fun _ => none) [("title", Val.str "T"), ("rights", Val.str "junk")] =
      [("title", Val.str "T"), ("rights", Val.str "junk")] ∧
    lookup (rights_post parseLicensedChildless [("rights", Val.str "<rights/>")]) "rights" =
      lookup [("rights", Val.str "<rights/>")] "rights" :=
  ⟨(c2_amended_rights_resilience (fun _ => none)
      [("title", Val.str "T"), ("rights", Val.str "junk")]).2.2.1
      (Val.str "junk") (by decide) rfl,
    (c2_amended_rights_resilience parseLicensedChildless
      [("rights", Val.str "<rights/>")]).1 "rights" (by decide) (by decide) (by decide)⟩

/-- Claim C3 counterexample: a record with `s.count = 1` but no `s.0`
instance: after `copy_element` the destination count is written but
`d.0` does not exist, contradicting the claim that `dest.0` through
`dest.(N-1)` always exist. -/
theorem c3_counterexample :
    copy_element 2 none "s" "d" [("s.count", Val.num 1)] =
      .ok [("s.count", Val.num 1), ("d.count", Val.num 1)] ∧
    lookup [("s.count", Val.num 1), ("d.count", Val.num 1)] "d.0" = none := by
  refine ⟨?_, ?_⟩ <;> rfl

/-- The record of the C4 counterexample: all three language variants
present, plus a language variant nested under `@rdf:resource`. -/
def rC4 : Record :=
  [("x", .str "t"), ("x/language", .str "en"), ("x/@lang", .str "fi"),
   ("x/@xml:lang", .str "sv"), ("x/@rdf:resource", .str "http://ex"),
   ("x/@rdf:resource/@xml:lang", .str "de")]

/-- Claim C4 counterexample: with `x/language = "en"`,
`x/@lang = "fi"`, `x/@xml:lang = "sv"` all present, the projected
`d/language` is nonetheless not `"sv"`: the `@rdf:resource` step
recursively projects its own `@xml:lang` variant onto `d/language`
afterwards, so the record also carrying
`x/@rdf:resource/@xml:lang = "de"` ends with `d/language = "de"`. -/
theorem c4_counterexample :
    lookup rC4 "x/language" = some (Val.str "en") ∧
    lookup rC4 "x/@lang" = some (Val.str "fi") ∧
    lookup rC4 "x/@xml:lang" = some (Val.str "sv") ∧
    copy_element 5 none "x" "d" rC4 =
      .ok (rC4 ++ [("d", Val.str "http://ex"), ("d/language", Val.str "de")]) ∧
    lookup (rC4 ++ [("d", Val.str "http://ex"), ("d/language", Val.str "de")])
      "d/language" ≠ some (Val.str "sv") := by
  refine ⟨?_, ?_, ?_, ?_, ?_⟩
  · rfl
  · rfl
  · rfl
  · rfl
  · decide

/-- First record of the C6 counterexample: the destination `b` is a
prefix of the source `b.count`, so the count written to
`dest + ".count"` aliases the source key itself. -/
def rC6 : Record := [("b.count.count", .num 1), ("b.count.0", .num 7)]

/-- Result of the first projection `copy_element("b.count", "b", ·)`. -/
def rC6a : Record :=
  [("b.count.count", .num 1), ("b.count.0", .num 7), ("b.count", .num 1), ("b.0", .num 7)]

/-- Claim C6 counterexample: `copy_element` re-invoked with identical
source and destination on an already-projected record is not a no-op:
with source `"b.count"` and destination `"b"`, the first run writes
`dest + ".count" = "b.count"` — the source key itself — so the second
run takes the scalar branch and creates the fresh key `"b"`. -/
theorem c6_counterexample :
    copy_element 5 none "b.count" "b" rC6 = .ok rC6a ∧
    copy_element 5 none "b.count" "b" rC6a = .ok (rC6a ++ [("b", Val.num 1)]) ∧
    lookup rC6a "b" = none ∧
    lookup (rC6a ++ [("b", Val.num 1)]) "b" = some (Val.num 1) := by
  refine ⟨?_, ?_, ?_, ?_⟩ <;> rfl

/-! ### Write-list transport

For prefix-incomparable source and destination, a successful run of
the path copier is a pure write list: its writes are
destination-shaped, and the same write list is produced again on any
record agreeing with the original on the source subtree.  This is the
backbone of the idempotence results. -/

/-- Two records agree on every key with prefix `S`. -/
def agreeOn (S : String) (r₁ r₂ : Record) : Prop :=
  ∀ k, pre S k = true → lookup r₁ k = lookup r₂ k

/-- `f` behaves as a fixed write list with keys satisfying `P`,
determined by the `S`-prefixed fragment of the record alone. -/
def GoodP (S : String) (P : String → Prop) (f : Record → CRes) : Prop :=
  ∀ r r', f r = .ok r' → ∃ w, (∀ kv ∈ w, P kv.1) ∧ r' = applyW r w ∧
    ∀ r₂, agreeOn S r r₂ → f r₂ = .ok (applyW r₂ w)

theorem wl_none_of_sep {S : String} {P : String → Prop} {w : List (String × Val)} {k : String}
    (hPS : ∀ k, P k → pre S k = false) (hw : ∀ kv ∈ w, P kv.1)
    (hk : pre S k = true) : wl w k = none := by
  apply wl_none_of_forall
  intro kv hkv he
  have := hPS kv.1 (hw kv hkv)
  rw [he, hk] at this
  exact Bool.noConfusion this

theorem GoodP_pure (S : String) (P : String → Prop) : GoodP S P (fun r => .ok r) := by
  intro r r' h
  cases h
  exact ⟨[], fun kv hkv => absurd hkv (List.not_mem_nil kv), rfl,
    fun r₂ _ => rfl⟩

theorem GoodP_seq {S : String} {P : String → Prop} {f g : Record → CRes}
    (hPS : ∀ k, P k → pre S k = false)
    (hf : GoodP S P f) (hg : GoodP S P g) :
    GoodP S P (fun r => andThen (f r) g) := by
  intro r r' h
  obtain ⟨rm, hfr, hgr⟩ := andThen_ok h
  obtain ⟨w₁, hw₁, e₁, t₁⟩ := hf r rm hfr
  obtain ⟨w₂, hw₂, e₂, t₂⟩ := hg rm r' hgr
  refine ⟨w₁ ++ w₂, ?_, ?_, ?_⟩
  · intro kv hkv
    rcases List.mem_append.mp hkv with hkv | hkv
    · exact hw₁ kv hkv
    · exact hw₂ kv hkv
  · rw [applyW_append, ← e₁, ← e₂]
  · intro r₂ hagree
    have hfr₂ : f r₂ = .ok (applyW r₂ w₁) := t₁ r₂ hagree
    have hmid : agreeOn S rm (applyW r₂ w₁) := by
      intro k hk
      have hwl : wl w₁ k = none := wl_none_of_sep hPS hw₁ hk
      have h1 : lookup rm k = lookup r k := by
        rw [e₁]; exact lookup_applyW_of_none hwl
      have h2 : lookup (applyW r₂ w₁) k = lookup r₂ k := lookup_applyW_of_none hwl
      rw [h1, h2]
      exact hagree k hk
    have hgr₂ := t₂ (applyW r₂ w₁) hmid
    show andThen (f r₂) g = .ok (applyW r₂ (w₁ ++ w₂))
    rw [hfr₂]
    show g (applyW r₂ w₁) = _
    rw [hgr₂, applyW_append]

theorem GoodP_weaken {S S' : String} {P P' : String → Prop} {f : Record → CRes}
    (h : GoodP S' P' f) (hS : pre S S' = true) (hP : ∀ k, P' k → P k) :
    GoodP S P f := by
  intro r r' hr
  obtain ⟨w, hw, e, t⟩ := h r r' hr
  refine ⟨w, fun kv hkv => hP kv.1 (hw kv hkv), e, ?_⟩
  intro r₂ hagree
  exact t r₂ (fun k hk => hagree k (pre_trans hS hk))

theorem agree_dset {S : String} {r r₂ : Record} (k₀ : String) (v : Val)
    (h : agreeOn S r r₂) : agreeOn S (dset r k₀ v) (dset r₂ k₀ v) := by
  intro k hk
  by_cases hkd : k₀ = k
  · subst hkd
    rw [lookup_set_self, lookup_set_self]
  · rw [lookup_set_other _ _ _ _ hkd, lookup_set_other _ _ _ _ hkd]
    exact h k hk

/-- The callbacks form good write lists for incomparable prefixes. -/
def cbGood : Option CbF → Prop
  | none => True
  | some f => ∀ s d, incomp s d → GoodP s (fun k => wkey d k = true) (f s d)

theorem str_append_empty (s : String) : s ++ "" = s := by
  cases s
  apply congrArg String.mk
  exact List.append_nil _

theorem pre_append_idx (s : String) (i : Nat) : pre s (s ++ "." ++ natStr i) = true := by
  rw [str_append_assoc]
  exact pre_append s _

theorem copyLoop_good {S : String} {P : String → Prop}
    {step : String → String → Record → CRes} {s d : String}
    (hPS : ∀ k, P k → pre S k = false) :
    ∀ (is : List Nat),
      (∀ i ∈ is, GoodP S P (step (s ++ "." ++ natStr i) (d ++ "." ++ natStr i))) →
      GoodP S P (fun r => copyLoop step s d is r) := by
  intro is
  induction is with
  | nil =>
    intro _
    exact GoodP_pure S P
  | cons i is ih =>
    intro hstep
    have hhead := hstep i (List.mem_cons_self _ _)
    have htail := ih (fun j hj => hstep j (List.mem_cons_of_mem _ hj))
    exact GoodP_seq hPS hhead htail

/-- The master transport lemma: for prefix-incomparable `s`, `d` and a
good callback, `copy_element n cb s d` is a fixed destination-shaped
write list determined by the source fragment. -/
theorem copy_element_good :
    ∀ (n : Nat) (cb : Option CbF), cbGood cb → ∀ (s d : String), incomp s d →
      GoodP s (fun k => wkey d k = true) (copy_element n cb s d) := by
  intro n
  induction n with
  | zero =>
    intro cb _ s d _ r r' h
    exact absurd h (by simp [copy_element])
  | succ n ih =>
    intro cb hcb s d hinc r r' h
    have hdisj : ∀ k, wkey d k = true → pre s k = false :=
      fun k hk => wkey_not_pre_of_incomp hinc hk
    cases hls : lookup r s with
    | some v =>
      rw [copy_element_scalar hls] at h
      have g1 : GoodP s (fun k => wkey d k = true)
          (copy_element n none (s ++ "/language") (d ++ "/language")) :=
        GoodP_weaken (ih none trivial _ _ (incomp_lift hinc _ _)) (pre_append s _)
          (fun k hk => wkey_trans (wkey_lang d) hk)
      have g2 : GoodP s (fun k => wkey d k = true)
          (copy_element n none (s ++ "/@lang") (d ++ "/language")) :=
        GoodP_weaken (ih none trivial _ _ (incomp_lift hinc _ _)) (pre_append s _)
          (fun k hk => wkey_trans (wkey_lang d) hk)
      have g3 : GoodP s (fun k => wkey d k = true)
          (copy_element n none (s ++ "/@xml:lang") (d ++ "/language")) :=
        GoodP_weaken (ih none trivial _ _ (incomp_lift hinc _ _)) (pre_append s _)
          (fun k hk => wkey_trans (wkey_lang d) hk)
      have g4 : GoodP s (fun k => wkey d k = true)
          (copy_element n none (s ++ "/@rdf:resource") d) := by
        have hinc' : incomp (s ++ "/@rdf:resource") d := by
          have := incomp_lift hinc "/@rdf:resource" ""
          rwa [str_append_empty] at this
        exact GoodP_weaken (ih none trivial _ _ hinc') (pre_append s _) (fun k hk => hk)
      have g5 : GoodP s (fun k => wkey d k = true) (cbRun cb s d) := by
        cases cb with
        | none => exact GoodP_pure s _
        | some f => exact hcb s d hinc
      have hG : GoodP s (fun k => wkey d k = true)
          (fun r0 => andThen (copy_element n none (s ++ "/language") (d ++ "/language") r0)
            (fun r1 => andThen (copy_element n none (s ++ "/@lang") (d ++ "/language") r1)
              (fun r2 => andThen (copy_element n none (s ++ "/@xml:lang") (d ++ "/language") r2)
                (fun r3 => andThen (copy_element n none (s ++ "/@rdf:resource") d r3)
                  (fun r4 => cbRun cb s d r4))))) :=
        GoodP_seq hdisj g1 (GoodP_seq hdisj g2 (GoodP_seq hdisj g3 (GoodP_seq hdisj g4 g5)))
      obtain ⟨w, hw, e, t⟩ := hG (dset r d v) r' h
      refine ⟨(d, v) :: w, ?_, ?_, ?_⟩
      · intro kv hkv
        rcases List.mem_cons.mp hkv with rfl | hkv
        · exact wkey_self d
        · exact hw kv hkv
      · exact e
      · intro r₂ hagree
        have hls₂ : lookup r₂ s = some v := by
          rw [← hagree s (pre_refl s)]
          exact hls
        rw [copy_element_scalar hls₂]
        exact t (dset r₂ d v) (agree_dset d v hagree)
    | none =>
      have hls₂g : ∀ r₂, agreeOn s r r₂ → lookup r₂ s = none := by
        intro r₂ hagree
        rw [← hagree s (pre_refl s)]
        exact hls
      cases hlc : lookup r (s ++ ".count") with
      | none =>
        rw [copy_element_absent hls hlc] at h
        cases h
        refine ⟨[], fun kv hkv => absurd hkv (List.not_mem_nil kv), rfl, ?_⟩
        intro r₂ hagree
        have hlc₂ : lookup r₂ (s ++ ".count") = none := by
          rw [← hagree _ (pre_append s _)]
          exact hlc
        rw [copy_element_absent (hls₂g r₂ hagree) hlc₂]
        rfl
      | some c =>
        have hlc₂g : ∀ r₂, agreeOn s r r₂ → lookup r₂ (s ++ ".count") = some c := by
          intro r₂ hagree
          rw [← hagree _ (pre_append s _)]
          exact hlc
        by_cases hf : falsy c = true
        · rw [copy_element_falsy hls hlc hf] at h
          cases h
          refine ⟨[], fun kv hkv => absurd hkv (List.not_mem_nil kv), rfl, ?_⟩
          intro r₂ hagree
          rw [copy_element_falsy (hls₂g r₂ hagree) (hlc₂g r₂ hagree) hf]
          rfl
        · cases c with
          | str cs =>
            rw [copy_element_tyerr hls hlc (by simpa using hf) (fun cnt h => by cases h)] at h
            exact absurd h (by simp)
          | null => exact absurd hf (by simp [falsy])
          | num cnt =>
            have hcnt : cnt ≠ 0 := by
              intro hc; subst hc; exact hf rfl
            rw [copy_element_count hls hlc hcnt] at h
            have hloop : GoodP s (fun k => wkey d k = true)
                (fun r0 => copyLoop (copy_element n cb) s d (List.range cnt) r0) := by
              apply copyLoop_good hdisj
              intro i _
              exact GoodP_weaken (ih cb hcb _ _
                  (by
                    have := incomp_lift hinc ("." ++ natStr i) ("." ++ natStr i)
                    rwa [← str_append_assoc, ← str_append_assoc] at this))
                (pre_append_idx s i) (fun k hk => wkey_trans (wkey_idx d i) hk)
            obtain ⟨w, hw, e, t⟩ := hloop (dset r (d ++ ".count") (Val.num cnt)) r' h
            refine ⟨(d ++ ".count", Val.num cnt) :: w, ?_, ?_, ?_⟩
            · intro kv hkv
              rcases List.mem_cons.mp hkv with rfl | hkv
              · exact wkey_count d
              · exact hw kv hkv
            · exact e
            · intro r₂ hagree
              rw [copy_element_count (hls₂g r₂ hagree) (hlc₂g r₂ hagree) hcnt]
              exact t (dset r₂ (d ++ ".count") (Val.num cnt))
                (agree_dset (d ++ ".count") (Val.num cnt) hagree)

/-! ### Goodness of the attribute callbacks and the rule table -/

theorem good_sub (n : Nat) (cb : Option CbF) (hcb : cbGood cb) {s d : String}
    (hinc : incomp s d) (a b : String) (hb : wkey d (d ++ b) = true) :
    GoodP s (fun k => wkey d k = true) (copy_element n cb (s ++ a) (d ++ b)) :=
  GoodP_weaken (copy_element_good n cb hcb (s ++ a) (d ++ b) (incomp_lift hinc a b))
    (pre_append s a) (fun k hk => wkey_trans hb hk)

theorem good_sub0 (n : Nat) (cb : Option CbF) (hcb : cbGood cb) {s d : String}
    (hinc : incomp s d) (a : String) :
    GoodP s (fun k => wkey d k = true) (copy_element n cb (s ++ a) d) := by
  have hinc' : incomp (s ++ a) d := by
    have := incomp_lift hinc a ""
    rwa [str_append_empty] at this
  exact GoodP_weaken (copy_element_good n cb hcb _ _ hinc') (pre_append s a) (fun k hk => hk)

theorem person_attrs_good (n : Nat) : ∀ s d, incomp s d →
    GoodP s (fun k => wkey d k = true) (person_attrs n s d) := by
  intro s d hinc
  have hdisj : ∀ k, wkey d k = true → pre s k = false :=
    fun k hk => wkey_not_pre_of_incomp hinc hk
  exact GoodP_seq hdisj
    (good_sub n none trivial hinc "/foaf:name" "/name" (wkey_append (Or.inr ⟨'/', _, rfl, Or.inl rfl⟩)))
    (GoodP_seq hdisj
      (good_sub n none trivial hinc "/foaf:mbox" "/email" (wkey_append (Or.inr ⟨'/', _, rfl, Or.inl rfl⟩)))
      (good_sub n none trivial hinc "/foaf:phone" "/phone" (wkey_append (Or.inr ⟨'/', _, rfl, Or.inl rfl⟩))))

theorem document_attrs_good (n : Nat) : ∀ s d, incomp s d →
    GoodP s (fun k => wkey d k = true) (document_attrs n s d) := by
  intro s d hinc
  have hdisj : ∀ k, wkey d k = true → pre s k = false :=
    fun k hk => wkey_not_pre_of_incomp hinc hk
  exact GoodP_seq hdisj
    (good_sub n none trivial hinc "/dct:title" "/title" (wkey_append (Or.inr ⟨'/', _, rfl, Or.inl rfl⟩)))
    (GoodP_seq hdisj
      (good_sub0 n none trivial hinc "/dct:identifier")
      (GoodP_seq hdisj
        (good_sub n none trivial hinc "/dct:creator" "/creator.0/name" (wkey_append (Or.inr ⟨'/', _, rfl, Or.inl rfl⟩)))
        (GoodP_seq hdisj
          (good_sub n (some (person_attrs n)) (person_attrs_good n) hinc "/nrd:creator" "/creator" (wkey_append (Or.inr ⟨'/', _, rfl, Or.inl rfl⟩)))
          (good_sub n none trivial hinc "/dct:description" "/description" (wkey_append (Or.inr ⟨'/', _, rfl, Or.inl rfl⟩))))))

theorem funding_attrs_good (n : Nat) : ∀ s d, incomp s d →
    GoodP s (fun k => wkey d k = true) (funding_attrs n s d) := by
  intro s d hinc
  have hdisj : ∀ k, wkey d k = true → pre s k = false :=
    fun k hk => wkey_not_pre_of_incomp hinc hk
  exact GoodP_seq hdisj
    (good_sub n none trivial hinc "/rev:arpfo:funds.0/arpfo:grantNumber" "/fundingNumber"
      (wkey_append (Or.inr ⟨'/', _, rfl, Or.inl rfl⟩)))
    (good_sub n (some (person_attrs n)) (person_attrs_good n) hinc
      "/rev:arpfo:funds.0/rev:arpfo:provides" "/funder" (wkey_append (Or.inr ⟨'/', _, rfl, Or.inl rfl⟩)))

theorem file_attrs_good (n : Nat) : ∀ s d, incomp s d →
    GoodP s (fun k => wkey d k = true) (file_attrs n s d) := by
  intro s d hinc
  have hdisj : ∀ k, wkey d k = true → pre s k = false :=
    fun k hk => wkey_not_pre_of_incomp hinc hk
  exact GoodP_seq hdisj
    (good_sub n none trivial hinc "/dcat:mediaType" "/mimetype" (wkey_append (Or.inr ⟨'/', _, rfl, Or.inl rfl⟩)))
    (GoodP_seq hdisj
      (good_sub n none trivial hinc "/fp:checksum.0/fp:checksumValue.0" "/checksum.0"
        (wkey_append (Or.inr ⟨'/', _, rfl, Or.inl rfl⟩)))
      (GoodP_seq hdisj
        (good_sub n none trivial hinc "/fp:checksum.0/fp:generator.0" "/checksum.0/algorithm"
          (wkey_append (Or.inr ⟨'/', _, rfl, Or.inl rfl⟩)))
        (good_sub n none trivial hinc "/dcat:byteSize" "/size"
          (wkey_append (Or.inr ⟨'/', _, rfl, Or.inl rfl⟩)))))

/-- The write-key discipline of the whole rule table: never inside the
`dataset` source subtree, never one of the three rights keys. -/
def tableP (k : String) : Prop :=
  pre "dataset" k = false ∧ k ≠ "rightsclass" ∧ k ≠ "license" ∧ k ≠ "accessURL"

theorem tableP_sep : ∀ k, tableP k → pre "dataset" k = false := fun _ h => h.1

theorem ruleP_of {d : String} (h1 : pre "dataset" d = false) (h2 : pre d "dataset" = false)
    (h3 : wkey d "rightsclass" = false) (h4 : wkey d "license" = false)
    (h5 : wkey d "accessURL" = false) :
    ∀ k, wkey d k = true → tableP k := by
  intro k hk
  refine ⟨?_, ?_, ?_, ?_⟩
  · by_contra hc
    have hc' : pre "dataset" k = true := by
      cases hx : pre "dataset" k with
      | true => rfl
      | false => exact absurd hx hc
    rcases pre_comparable (wkey_pre hk) hc' with h' | h'
    · rw [h2] at h'; exact Bool.noConfusion h'
    · rw [h1] at h'; exact Bool.noConfusion h'
  · intro he; rw [he] at hk; rw [h3] at hk; exact Bool.noConfusion hk
  · intro he; rw [he] at hk; rw [h4] at hk; exact Bool.noConfusion hk
  · intro he; rw [he] at hk; rw [h5] at hk; exact Bool.noConfusion hk

theorem rule_good (n : Nat) (cb : Option CbF) (hcb : cbGood cb) (s d : String)
    (h1 : incomp s d) (h3 : pre "dataset" s = true)
    (h4 : pre "dataset" d = false) (h5 : pre d "dataset" = false)
    (h6 : wkey d "rightsclass" = false) (h7 : wkey d "license" = false)
    (h8 : wkey d "accessURL" = false) :
    GoodP "dataset" tableP (copy_element n cb s d) :=
  GoodP_weaken (copy_element_good n cb hcb s d h1) h3 (ruleP_of h4 h5 h6 h7 h8)

theorem runRules_good_of (n : Nat) :
    ∀ (rules : List (String × String × Option CbF)),
      (∀ rule ∈ rules, GoodP "dataset" tableP
        (copy_element n rule.2.2 rule.1 rule.2.1)) →
      GoodP "dataset" tableP (fun r => runRules n rules r) := by
  intro rules
  induction rules with
  | nil =>
    intro _
    exact GoodP_pure _ _
  | cons rule rest ih =>
    intro hr
    obtain ⟨s, d, cb⟩ := rule
    have hhead := hr (s, d, cb) (List.mem_cons_self _ _)
    have htail := ih (fun rule' hm => hr rule' (List.mem_cons_of_mem _ hm))
    exact GoodP_seq tableP_sep hhead htail

/-- The full rule table of `nrd_metadata_reader` is a fixed write list
determined by the `dataset` subtree, writing only outside it and never
to `rightsclass`/`license`/`accessURL`. -/
theorem runRules_good (n : Nat) :
    GoodP "dataset" tableP (fun r => runRules n (nrdRules n) r) := by
  apply runRules_good_of
  intro rule hmem
  simp only [nrdRules, List.mem_cons, List.not_mem_nil, or_false] at hmem
  rcases hmem with rfl | rfl | rfl | rfl | rfl | rfl | rfl | rfl | rfl | rfl | rfl | rfl |
    rfl | rfl | rfl | rfl | rfl | rfl | rfl | rfl | rfl | rfl | rfl
  · exact rule_good n none trivial _ _ (by decide) (by decide) (by decide) (by decide)
      (by decide) (by decide) (by decide)
  · exact rule_good n none trivial _ _ (by decide) (by decide) (by decide) (by decide)
      (by decide) (by decide) (by decide)
  · exact rule_good n none trivial _ _ (by decide) (by decide) (by decide) (by decide)
      (by decide) (by decide) (by decide)
  · exact rule_good n none trivial _ _ (by decide) (by decide) (by decide) (by decide)
      (by decide) (by decide) (by decide)
  · exact rule_good n none trivial _ _ (by decide) (by decide) (by decide) (by decide)
      (by decide) (by decide) (by decide)
  · exact rule_good n none trivial _ _ (by decide) (by decide) (by decide) (by decide)
      (by decide) (by decide) (by decide)
  · exact rule_good n none trivial _ _ (by decide) (by decide) (by decide) (by decide)
      (by decide) (by decide) (by decide)
  · exact rule_good n none trivial _ _ (by decide) (by decide) (by decide) (by decide)
      (by decide) (by decide) (by decide)
  · exact rule_good n (some (person_attrs n)) (person_attrs_good n) "dataset/nrd:owner" "owner" (by decide)
      (by decide) (by decide) (by decide) (by decide) (by decide) (by decide)
  · exact rule_good n (some (person_attrs n)) (person_attrs_good n) "dataset/nrd:creator" "creator" (by decide)
      (by decide) (by decide) (by decide) (by decide) (by decide) (by decide)
  · exact rule_good n (some (person_attrs n)) (person_attrs_good n) "dataset/nrd:distributor" "distributor" (by decide)
      (by decide) (by decide) (by decide) (by decide) (by decide) (by decide)
  · exact rule_good n (some (person_attrs n)) (person_attrs_good n) "dataset/nrd:contributor" "contributor" (by decide)
      (by decide) (by decide) (by decide) (by decide) (by decide) (by decide)
  · exact rule_good n none trivial _ _ (by decide) (by decide) (by decide) (by decide)
      (by decide) (by decide) (by decide)
  · exact rule_good n (some (funding_attrs n)) (funding_attrs_good n) "dataset/nrd:producerProject" "project" (by decide)
      (by decide) (by decide) (by decide) (by decide) (by decide) (by decide)
  · exact rule_good n (some (document_attrs n)) (document_attrs_good n) "dataset/dct:isPartOf" "collection" (by decide)
      (by decide) (by decide) (by decide) (by decide) (by decide) (by decide)
  · exact rule_good n none trivial _ _ (by decide) (by decide) (by decide) (by decide)
      (by decide) (by decide) (by decide)
  · exact rule_good n none trivial _ _ (by decide) (by decide) (by decide) (by decide)
      (by decide) (by decide) (by decide)
  · exact rule_good n none trivial _ _ (by decide) (by decide) (by decide) (by decide)
      (by decide) (by decide) (by decide)
  · exact rule_good n none trivial _ _ (by decide) (by decide) (by decide) (by decide)
      (by decide) (by decide) (by decide)
  · exact rule_good n (some (file_attrs n)) (file_attrs_good n) "dataset/nrd:manifestation" "resource" (by decide)
      (by decide) (by decide) (by decide) (by decide) (by decide) (by decide)
  · exact rule_good n none trivial _ _ (by decide) (by decide) (by decide) (by decide)
      (by decide) (by decide) (by decide)
  · exact rule_good n (some (document_attrs n)) (document_attrs_good n) "dataset/nrd:usedByPublication" "publication" (by decide)
      (by decide) (by decide) (by decide) (by decide) (by decide) (by decide)
  · exact rule_good n none trivial _ _ (by decide) (by decide) (by decide) (by decide)
      (by decide) (by decide) (by decide)

/-! ### Idempotence -/

theorem olay_none (b : Option Val) : olay none b = b := rfl

theorem olay_idem (a b : Option Val) : olay a (olay a b) = olay a b := by
  cases a <;> rfl

theorem olay_absorb4 (a b c : Option Val) :
    olay a (olay b (olay a (olay b c))) = olay a (olay b c) := by
  cases a <;> cases b <;> rfl

theorem rightsWrites_wl_rights (parse : Val → Option XmlE) (ov : Option Val) :
    wl (rightsWrites parse ov) "rights" = none := by
  apply wl_none_of_forall
  intro kv hkv heq
  rcases rightsWrites_keys parse ov kv hkv with h | h | h <;>
    exact absurd (heq.symm.trans h) (by decide)

/-- Claim C6 (amended): the full Schema Mapper pass — rule table plus
rights post-processing — is idempotent on every input record: a second
application returns the same map.  The path copier itself is
idempotent whenever neither of source/destination is a prefix of the
other (which holds for every invocation the Schema Mapper makes); for
prefix-comparable pairs idempotence fails, see the counterexample. -/
theorem c6_idempotence_amended :
    (∀ (parse : Val → Option XmlE) (n : Nat) (r r₁ r₂ : Record),
      nrd_metadata_reader parse n r = .ok r₁ →
      nrd_metadata_reader parse n r₁ = .ok r₂ → req r₂ r₁) ∧
    (∀ (n : Nat) (s d : String) (r r₁ r₂ : Record), incomp s d →
      copy_element n none s d r = .ok r₁ →
      copy_element n none s d r₁ = .ok r₂ → req r₂ r₁) := by
  constructor
  · intro parse n r r₁ r₂ h1 h2
    obtain ⟨t1, ht1, he1⟩ := andThen_ok h1
    obtain ⟨t2, ht2, he2⟩ := andThen_ok h2
    have hr1 : rights_post parse t1 = r₁ := by injection he1
    have hr2 : rights_post parse t2 = r₂ := by injection he2
    obtain ⟨w, hwP, e1, t⟩ := runRules_good n r t1 ht1
    have L1 : ∀ k, lookup t1 k = olay (wl w k) (lookup r k) := by
      intro k
      rw [e1, lookup_applyW]
    have L2 : ∀ k, lookup r₁ k =
        olay (wl (rightsWrites parse (lookup t1 "rights")) k) (lookup t1 k) := by
      intro k
      rw [← hr1, rights_post, lookup_applyW]
    have hragree : agreeOn "dataset" r r₁ := by
      intro k hk
      have hw_none : wl w k = none := wl_none_of_sep tableP_sep hwP hk
      have hu_none : wl (rightsWrites parse (lookup t1 "rights")) k = none := by
        apply wl_none_of_forall
        intro kv hkv heq
        rcases rightsWrites_keys parse _ kv hkv with h | h | h <;>
          (have hke := heq.symm.trans h; rw [hke] at hk; exact absurd hk (by decide))
      rw [L2 k, hu_none, olay_none, L1 k, hw_none, olay_none]
    have ht2' := t r₁ hragree
    have hT2 : t2 = applyW r₁ w := by
      have := ht2.symm.trans ht2'
      injection this
    have L3 : ∀ k, lookup t2 k = olay (wl w k) (lookup r₁ k) := by
      intro k
      rw [hT2, lookup_applyW]
    have hr_rights : lookup t2 "rights" = lookup t1 "rights" := by
      rw [L3, L2, rightsWrites_wl_rights, olay_none, L1]
      exact olay_idem _ _
    have L4 : ∀ k, lookup r₂ k =
        olay (wl (rightsWrites parse (lookup t1 "rights")) k) (lookup t2 k) := by
      intro k
      rw [← hr2, rights_post, lookup_applyW, hr_rights]
    intro k
    rw [L4 k, L3 k, L2 k, L1 k]
    exact olay_absorb4 _ _ _
  · intro n s d r r₁ r₂ hinc h1 h2
    obtain ⟨w, hw, e1, t⟩ := copy_element_good n none trivial s d hinc r r₁ h1
    have hagree : agreeOn s r r₁ := by
      intro k hk
      rw [e1, lookup_applyW_of_none
        (wl_none_of_sep (fun k hk => wkey_not_pre_of_incomp hinc hk) hw hk)]
    have h2' := t r₁ hagree
    have hR2 : r₂ = applyW r₁ w := by
      have := h2.symm.trans h2'
      injection this
    intro k
    rw [hR2, lookup_applyW, e1, lookup_applyW]
    exact olay_idem _ _

/-- Witness for C6 amended: the full pass applied twice to a concrete
record, and the path copier re-invoked on a concrete already-projected
record, both leave the map unchanged. -/
theorem c6_witness :
    nrd_metadata_reader (fun _ => none) 1 [] = .ok [] ∧
    copy_element 2 none "a" "b" [("a", Val.str "x")] =
      .ok [("a", Val.str "x"), ("b", Val.str "x")] ∧
    copy_element 2 none "a" "b" [("a", Val.str "x"), ("b", Val.str "x")] =
      .ok [("a", Val.str "x"), ("b", Val.str "x")] ∧
    lookup ([] : Record) "title" = lookup ([] : Record) "title" ∧
    lookup [("a", Val.str "x"), ("b", Val.str "x")] "b" =
      lookup [("a", Val.str "x"), ("b", Val.str "x")] "b" := by
  refine ⟨rfl, rfl, rfl, ?_, ?_⟩
  · exact c6_idempotence_amended.1 (fun _ => none) 1 [] [] [] rfl rfl "title"
  · exact c6_idempotence_amended.2 2 "a" "b" [("a", Val.str "x")]
      [("a", Val.str "x"), ("b", Val.str "x")] [("a", Val.str "x"), ("b", Val.str "x")]
      (by decide) rfl rfl "b"

/-! ### Count preservation (claim C3) -/

theorem pre_append_cancel_str (d a b : String) :
    pre (d ++ a) (d ++ b) = lpre a.data b.data := by
  rw [pre, string_data_append, string_data_append]
  exact lpre_append_cancel _ _ _

/-- A scalar-branch run leaves the destination key present. -/
theorem copy_element_scalar_dest {m : Nat} {cb : Option CbF} {s' d' : String}
    {r rm : Record} {v : Val} (hcb : cbMono cb) (hv : lookup r s' = some v)
    (h : copy_element m cb s' d' r = .ok rm) :
    (lookup rm d').isSome = true := by
  cases m with
  | zero => exact absurd h (by simp [copy_element])
  | succ m =>
    rw [copy_element_scalar hv] at h
    obtain ⟨r1, h1, h⟩ := andThen_ok h
    obtain ⟨r2, h2, h⟩ := andThen_ok h
    obtain ⟨r3, h3, h⟩ := andThen_ok h
    obtain ⟨r4, h4, h⟩ := andThen_ok h
    have h0 : (lookup (dset r d' v) d').isSome = true := by
      rw [lookup_set_self]; rfl
    have m1 := copy_element_mono m none _ _ _ _ trivial h1
    have m2 := copy_element_mono m none _ _ _ _ trivial h2
    have m3 := copy_element_mono m none _ _ _ _ trivial h3
    have m4 := copy_element_mono m none _ _ _ _ trivial h4
    have m5 : presMono r4 rm := by
      cases cb with
      | none => cases h; exact presMono_refl _
      | some f => exact hcb _ _ _ _ h
    exact m5 _ (m4 _ (m3 _ (m2 _ (m1 _ h0))))

/-- Through the indexed loop, the `.count` key written before the loop
keeps its value, and every index whose source instance is present ends
with its destination instance present. -/
theorem copyLoop_count_pres {m : Nat} {s d : String} {v : Val} :
    ∀ (is : List Nat) (r0 r' : Record),
      copyLoop (copy_element m none) s d is r0 = .ok r' →
      lookup r0 (d ++ ".count") = some v →
      lookup r' (d ++ ".count") = some v ∧
      ∀ i ∈ is, (lookup r0 (s ++ "." ++ natStr i)).isSome = true →
        (lookup r' (d ++ "." ++ natStr i)).isSome = true := by
  intro is
  induction is with
  | nil =>
    intro r0 r' h hv
    cases h
    exact ⟨hv, fun i hi => absurd hi (List.not_mem_nil i)⟩
  | cons i is ih =>
    intro r0 r' h hv
    obtain ⟨rm, hstep, hrest⟩ := andThen_ok h
    obtain ⟨w, hwk, he⟩ := copy_element_frame m none _ _ _ _ trivial hstep
    have hcount_rm : lookup rm (d ++ ".count") = some v := by
      rw [he]
      rw [lookup_applyW_of_none]
      · exact hv
      · apply wl_none_of_forall
        intro kv hkv heq
        have hp := wkey_pre (hwk kv hkv)
        rw [heq] at hp
        rw [natStr_not_pre_count d i] at hp
        exact Bool.noConfusion hp
    have hmono_step := copy_element_mono m none _ _ _ _ trivial hstep
    have hmono_rest := copyLoop_mono
      (fun s' d' rr rr' hh => copy_element_mono m none s' d' rr rr' trivial hh) is _ _ hrest
    obtain ⟨hfin, hidx⟩ := ih rm r' hrest hcount_rm
    refine ⟨hfin, ?_⟩
    intro j hj hpres
    rcases List.mem_cons.mp hj with rfl | hj
    · -- the head index: its source instance is present, so the step
      -- takes the scalar branch and writes the destination instance
      have hsome : ∃ vj, lookup r0 (s ++ "." ++ natStr j) = some vj := by
        cases hx : lookup r0 (s ++ "." ++ natStr j) with
        | none => rw [hx] at hpres; exact Bool.noConfusion hpres
        | some vj => exact ⟨vj, rfl⟩
      obtain ⟨vj, hvj⟩ := hsome
      have hdj := copy_element_scalar_dest (show cbMono (none : Option CbF) from trivial) hvj hstep
      exact hmono_rest _ hdj
    · exact hidx j hj (hmono_step _ hpres)

/-- Claim C3 (amended): if `source` is not a scalar key and
`source + ".count" = N ≥ 1`, a successful projection writes
`dest + ".count" = N`, and for every index `i < N` whose source
instance `source.i` is present in the record, the destination instance
`dest.i` exists afterwards (index `i` maps to index `i`).  When a
source instance is absent, no destination instance is created for that
index — see the counterexample. -/
theorem c3_count_preservation_amended (n : Nat) (s d : String) (r r' : Record) (N : Nat)
    (hs : lookup r s = none)
    (hc : lookup r (s ++ ".count") = some (Val.num N))
    (hN : 0 < N)
    (hsucc : copy_element n none s d r = .ok r') :
    lookup r' (d ++ ".count") = some (Val.num N) ∧
    (∀ i, i < N → (lookup r (s ++ "." ++ natStr i)).isSome = true →
      (lookup r' (d ++ "." ++ natStr i)).isSome = true) := by
  cases n with
  | zero => exact absurd hsucc (by simp [copy_element])
  | succ m =>
    rw [copy_element_count hs hc (by omega)] at hsucc
    have h0 : lookup (dset r (d ++ ".count") (Val.num N)) (d ++ ".count") =
        some (Val.num N) := lookup_set_self _ _ _
    obtain ⟨hfin, hidx⟩ := copyLoop_count_pres (List.range N) _ _ hsucc h0
    refine ⟨hfin, ?_⟩
    intro i hi hpres
    exact hidx i (List.mem_range.mpr hi)
      (presMono_dset r (d ++ ".count") (Val.num N) _ hpres)

/-- Witness for C3 amended at a concrete record with one present
instance. -/
theorem c3_witness :
    copy_element 3 none "s" "d" [("s.count", Val.num 1), ("s.0", Val.str "v")] =
      .ok [("s.count", Val.num 1), ("s.0", Val.str "v"),
           ("d.count", Val.num 1), ("d.0", Val.str "v")] ∧
    lookup [("s.count", Val.num 1), ("s.0", Val.str "v"),
            ("d.count", Val.num 1), ("d.0", Val.str "v")] "d.count" = some (Val.num 1) ∧
    (lookup [("s.count", Val.num 1), ("s.0", Val.str "v"),
             ("d.count", Val.num 1), ("d.0", Val.str "v")] "d.0").isSome = true := by
  refine ⟨?_, ?_, ?_⟩
  · rfl
  · exact (c3_count_preservation_amended 3 "s" "d"
      [("s.count", Val.num 1), ("s.0", Val.str "v")]
      [("s.count", Val.num 1), ("s.0", Val.str "v"),
       ("d.count", Val.num 1), ("d.0", Val.str "v")] 1
      (by decide) (by decide) (by decide) (by rfl)).1
  · exact (c3_count_preservation_amended 3 "s" "d"
      [("s.count", Val.num 1), ("s.0", Val.str "v")]
      [("s.count", Val.num 1), ("s.0", Val.str "v"),
       ("d.count", Val.num 1), ("d.0", Val.str "v")] 1
      (by decide) (by decide) (by decide) (by rfl)).2 0 (by decide) (by decide)

/-! ### Pointwise frames and the language/resource precedence (claim C4) -/

theorem pre_false_of_longer {a b : String} (h : b.data.length < a.data.length) :
    pre a b = false := by
  cases hx : pre a b with
  | false => rfl
  | true =>
    have := lpre_length hx
    omega

theorem pre_append_left_ne (d t : String) (ht : t.data ≠ []) : pre (d ++ t) d = false := by
  apply pre_false_of_longer
  rw [string_data_append, List.length_append]
  cases hc : t.data with
  | nil => exact absurd hc ht
  | cons c cs => simp [hc]

theorem append_right_ne (d t : String) (ht : t.data ≠ []) : d ++ t ≠ d := by
  intro he
  have hd : (d ++ t).data = d.data := congrArg String.data he
  rw [string_data_append] at hd
  have := congrArg List.length hd
  rw [List.length_append] at this
  have hz : t.data.length = 0 := by omega
  exact ht (List.length_eq_zero.mp hz)

theorem pre_ext_false_of_incomp {s d : String} (hinc : incomp s d) {e k : String}
    (hde : pre d e = true) (hk : pre s k = true) : pre e k = false := by
  cases hx : pre e k with
  | false => rfl
  | true =>
    have hdk : pre d k = true := pre_trans hde hx
    rcases pre_comparable hk hdk with h' | h'
    · rw [hinc.1] at h'; exact Bool.noConfusion h'
    · rw [hinc.2] at h'; exact Bool.noConfusion h'

/-- Any single copy-step only changes keys prefixed by its own
destination. -/
theorem step_frame_pw {m : Nat} {src dd : String} {r r' : Record}
    (h : copy_element m none src dd r = .ok r') :
    ∀ k, pre dd k = false → lookup r' k = lookup r k := by
  obtain ⟨w, hw, rfl⟩ := copy_element_frame m none src dd r r' trivial h
  intro k hk
  apply lookup_applyW_of_none
  apply wl_none_of_forall
  intro kv hkv heq
  have hp := wkey_pre (hw kv hkv)
  rw [heq, hk] at hp
  exact Bool.noConfusion hp

theorem pre_dot_count (d : String) : pre (d ++ ".") (d ++ ".count") = true := by
  rw [pre_append_cancel_str]
  decide

theorem copyLoop_dotframe {n : Nat} {cb : Option CbF} {s d : String} (hcbF : cbFrame cb) :
    ∀ (is : List Nat) (r r' : Record),
      copyLoop (copy_element n cb) s d is r = .ok r' →
      ∃ w, (∀ kv ∈ w, pre (d ++ ".") kv.1 = true) ∧ r' = applyW r w := by
  intro is
  induction is with
  | nil =>
    intro r r' h
    cases h
    exact ⟨[], fun kv hkv => absurd hkv (List.not_mem_nil kv), rfl⟩
  | cons i is ih =>
    intro r r' h
    obtain ⟨rm, h1, h2⟩ := andThen_ok h
    obtain ⟨w₁, hw₁, e₁⟩ := copy_element_frame n cb _ _ _ _ hcbF h1
    obtain ⟨w₂, hw₂, e₂⟩ := ih _ _ h2
    refine ⟨w₁ ++ w₂, ?_, ?_⟩
    · intro kv hkv
      rcases List.mem_append.mp hkv with hkv | hkv
      · exact pre_trans (pre_append (d ++ ".") (natStr i)) (wkey_pre (hw₁ kv hkv))
      · exact hw₂ kv hkv
    · rw [applyW_append, ← e₁, ← e₂]

/-- A count-branch run (source not a scalar key) only changes keys
prefixed by `dest + "."`. -/
theorem copy_element_absent_frame {n : Nat} {cb : Option CbF} {s d : String} {r r' : Record}
    (hcbF : cbFrame cb) (hs : lookup r s = none)
    (h : copy_element n cb s d r = .ok r') :
    ∀ k, pre (d ++ ".") k = false → lookup r' k = lookup r k := by
  cases n with
  | zero => exact absurd h (by simp [copy_element])
  | succ m =>
    cases hlc : lookup r (s ++ ".count") with
    | none =>
      rw [copy_element_absent hs hlc] at h
      cases h
      intro k _
      rfl
    | some c =>
      by_cases hf : falsy c = true
      · rw [copy_element_falsy hs hlc hf] at h
        cases h
        intro k _
        rfl
      · cases c with
        | str cs =>
          rw [copy_element_tyerr hs hlc (by simpa using hf) (fun cnt h => by cases h)] at h
          exact absurd h (by simp)
        | null => exact absurd hf (by simp [falsy])
        | num cnt =>
          have hcnt : cnt ≠ 0 := by
            intro hc; subst hc; exact hf rfl
          rw [copy_element_count hs hlc hcnt] at h
          obtain ⟨w, hwk, e⟩ := copyLoop_dotframe hcbF (List.range cnt) _ _ h
          intro k hk
          rw [e, lookup_applyW_of_none]
          · apply lookup_set_other
            intro he
            rw [← he, pre_dot_count d] at hk
            exact Bool.noConfusion hk
          · apply wl_none_of_forall
            intro kv hkv heq
            have := hwk kv hkv
            rw [heq, hk] at this
            exact Bool.noConfusion this

/-- Scalar-head evaluation: if `source` is a scalar key and its
`@rdf:resource` variant is absent, a successful run ends with
`record[dest] = record[source]`, and changes only `dest`, keys under
`dest + "/language"`, and keys under `dest + "."`. -/
theorem copy_element_scalar_exact {n : Nat} {s d : String} {r r' : Record} {v : Val}
    (hinc : incomp s d)
    (hv : lookup r s = some v)
    (hres : lookup r (s ++ "/@rdf:resource") = none)
    (h : copy_element n none s d r = .ok r') :
    lookup r' d = some v ∧
    (∀ k, k ≠ d → pre (d ++ "/language") k = false → pre (d ++ ".") k = false →
      lookup r' k = lookup r k) := by
  cases n with
  | zero => exact absurd h (by simp [copy_element])
  | succ m =>
    rw [copy_element_scalar hv] at h
    obtain ⟨r1, h1, h⟩ := andThen_ok h
    obtain ⟨r2, h2, h⟩ := andThen_ok h
    obtain ⟨r3, h3, h⟩ := andThen_ok h
    obtain ⟨r4, h4, h⟩ := andThen_ok h
    have hr' : r4 = r' := by injection h
    subst hr'
    have hdne : ∀ k, pre s k = true → d ≠ k := by
      intro k hk he
      rw [← he] at hk
      rw [hinc.1] at hk
      exact Bool.noConfusion hk
    have hlangpre : pre d (d ++ "/language") = true := pre_append d _
    -- the @rdf:resource source key is still absent when step 4 runs
    have hpres_s : pre s (s ++ "/@rdf:resource") = true := pre_append s _
    have hstab : lookup r3 (s ++ "/@rdf:resource") = none := by
      rw [step_frame_pw h3 _ (pre_ext_false_of_incomp hinc hlangpre hpres_s),
        step_frame_pw h2 _ (pre_ext_false_of_incomp hinc hlangpre hpres_s),
        step_frame_pw h1 _ (pre_ext_false_of_incomp hinc hlangpre hpres_s),
        lookup_set_other _ _ _ _ (hdne _ hpres_s)]
      exact hres
    have E4 := copy_element_absent_frame (show cbFrame (none : Option CbF) from trivial) hstab h4
    constructor
    · have hld : pre (d ++ "/language") d = false := pre_append_left_ne d _ (by decide)
      have hdd : pre (d ++ ".") d = false := pre_append_left_ne d _ (by decide)
      rw [E4 d hdd, step_frame_pw h3 d hld, step_frame_pw h2 d hld,
        step_frame_pw h1 d hld]
      exact lookup_set_self r d v
    · intro k hkd hkl hkdot
      rw [E4 k hkdot, step_frame_pw h3 k hkl, step_frame_pw h2 k hkl,
        step_frame_pw h1 k hkl]
      exact lookup_set_other _ _ _ _ (fun he => hkd he.symm)

/-- Scalar-head evaluation with all four variant sources absent: the
run writes `dest` and otherwise only keys under
`dest + "/language" + "."` and `dest + "."`; in particular
`dest + "/language"` itself is untouched. -/
theorem copy_element_scalar_exact2 {n : Nat} {s d : String} {r r' : Record} {v : Val}
    (hinc : incomp s d)
    (hv : lookup r s = some v)
    (ha1 : lookup r (s ++ "/language") = none)
    (ha2 : lookup r (s ++ "/@lang") = none)
    (ha3 : lookup r (s ++ "/@xml:lang") = none)
    (ha4 : lookup r (s ++ "/@rdf:resource") = none)
    (h : copy_element n none s d r = .ok r') :
    lookup r' d = some v ∧
    (∀ k, k ≠ d → pre (d ++ "/language" ++ ".") k = false → pre (d ++ ".") k = false →
      lookup r' k = lookup r k) := by
  cases n with
  | zero => exact absurd h (by simp [copy_element])
  | succ m =>
    rw [copy_element_scalar hv] at h
    obtain ⟨r1, h1, h⟩ := andThen_ok h
    obtain ⟨r2, h2, h⟩ := andThen_ok h
    obtain ⟨r3, h3, h⟩ := andThen_ok h
    obtain ⟨r4, h4, h⟩ := andThen_ok h
    have hr' : r4 = r' := by injection h
    subst hr'
    have hdne : ∀ k, pre s k = true → d ≠ k := by
      intro k hk he
      rw [← he] at hk
      rw [hinc.1] at hk
      exact Bool.noConfusion hk
    have hdotlang : pre d (d ++ "/language" ++ ".") = true :=
      pre_trans (pre_append d "/language") (pre_append (d ++ "/language") ".")
    -- each variant source key is still absent when its step runs
    have hp1 : pre s (s ++ "/language") = true := pre_append s _
    have hp2 : pre s (s ++ "/@lang") = true := pre_append s _
    have hp3 : pre s (s ++ "/@xml:lang") = true := pre_append s _
    have hp4 : pre s (s ++ "/@rdf:resource") = true := pre_append s _
    have hb1 : lookup (dset r d v) (s ++ "/language") = none := by
      rw [lookup_set_other _ _ _ _ (hdne _ hp1)]; exact ha1
    have E1 := copy_element_absent_frame (show cbFrame (none : Option CbF) from trivial) hb1 h1
    have hb2 : lookup r1 (s ++ "/@lang") = none := by
      rw [E1 _ (pre_ext_false_of_incomp hinc hdotlang hp2),
        lookup_set_other _ _ _ _ (hdne _ hp2)]
      exact ha2
    have E2 := copy_element_absent_frame (show cbFrame (none : Option CbF) from trivial) hb2 h2
    have hb3 : lookup r2 (s ++ "/@xml:lang") = none := by
      rw [E2 _ (pre_ext_false_of_incomp hinc hdotlang hp3),
        E1 _ (pre_ext_false_of_incomp hinc hdotlang hp3),
        lookup_set_other _ _ _ _ (hdne _ hp3)]
      exact ha3
    have E3 := copy_element_absent_frame (show cbFrame (none : Option CbF) from trivial) hb3 h3
    have hb4 : lookup r3 (s ++ "/@rdf:resource") = none := by
      rw [E3 _ (pre_ext_false_of_incomp hinc hdotlang hp4),
        E2 _ (pre_ext_false_of_incomp hinc hdotlang hp4),
        E1 _ (pre_ext_false_of_incomp hinc hdotlang hp4),
        lookup_set_other _ _ _ _ (hdne _ hp4)]
      exact ha4
    have E4 := copy_element_absent_frame (show cbFrame (none : Option CbF) from trivial) hb4 h4
    have hld : pre (d ++ "/language" ++ ".") d = false := by
      apply pre_false_of_longer
      rw [string_data_append, string_data_append, List.length_append, List.length_append]
      simp
      omega
    have hdd : pre (d ++ ".") d = false := pre_append_left_ne d _ (by decide)
    constructor
    · rw [E4 d hdd, E3 d hld, E2 d hld, E1 d hld]
      exact lookup_set_self r d v
    · intro k hkd hkl hkdot
      rw [E4 k hkdot, E3 k hkl, E2 k hkl, E1 k hkl]
      exact lookup_set_other _ _ _ _ (fun he => hkd he.symm)

/-- Claim C4 (amended): with `source` a scalar key, the language
variants are projected in order `language` → `@lang` → `@xml:lang`,
each overwriting `dest + "/language"`, and `@rdf:resource` finally
overwrites `dest`; the projected `dest/language` equals the
`@xml:lang` value and `dest` equals the `@rdf:resource` value,
provided no variants are nested under `source/@xml:lang` or
`source/@rdf:resource` (otherwise the recursive projection of those
deeper variants overwrites the result again — see the
counterexample). -/
theorem c4_amended_language_resource (n : Nat) (s d : String) (r r' : Record)
    (v0 v1 v2 v3 vr : Val)
    (hinc : incomp s d)
    (h0 : lookup r s = some v0)
    (hl : lookup r (s ++ "/language") = some v1)
    (ha : lookup r (s ++ "/@lang") = some v2)
    (hx : lookup r (s ++ "/@xml:lang") = some v3)
    (hxr : lookup r (s ++ "/@xml:lang" ++ "/@rdf:resource") = none)
    (hr : lookup r (s ++ "/@rdf:resource") = some vr)
    (hq1 : lookup r (s ++ "/@rdf:resource" ++ "/language") = none)
    (hq2 : lookup r (s ++ "/@rdf:resource" ++ "/@lang") = none)
    (hq3 : lookup r (s ++ "/@rdf:resource" ++ "/@xml:lang") = none)
    (hq4 : lookup r (s ++ "/@rdf:resource" ++ "/@rdf:resource") = none)
    (hsucc : copy_element n none s d r = .ok r') :
    lookup r' (d ++ "/language") = some v3 ∧ lookup r' d = some vr := by
  cases n with
  | zero => exact absurd hsucc (by simp [copy_element])
  | succ m =>
    rw [copy_element_scalar h0] at hsucc
    obtain ⟨r1, h1, hsucc⟩ := andThen_ok hsucc
    obtain ⟨r2, h2, hsucc⟩ := andThen_ok hsucc
    obtain ⟨r3, h3, hsucc⟩ := andThen_ok hsucc
    obtain ⟨r4, h4, hsucc⟩ := andThen_ok hsucc
    have hr' : r4 = r' := by injection hsucc
    subst hr'
    have hdne : ∀ k, pre s k = true → d ≠ k := by
      intro k hk he
      rw [← he, hinc.1] at hk
      exact Bool.noConfusion hk
    have hDfalse : ∀ k, pre s k = true → pre (d ++ "/language") k = false :=
      fun k hk => pre_ext_false_of_incomp hinc (pre_append d "/language") hk
    have stab2 : ∀ k, pre s k = true → lookup r2 k = lookup r k := by
      intro k hk
      rw [step_frame_pw h2 k (hDfalse k hk), step_frame_pw h1 k (hDfalse k hk),
        lookup_set_other _ _ _ _ (hdne k hk)]
    have stab3 : ∀ k, pre s k = true → lookup r3 k = lookup r k := by
      intro k hk
      rw [step_frame_pw h3 k (hDfalse k hk)]
      exact stab2 k hk
    -- step 3 writes the @xml:lang value to dest/language
    have hstep3 := copy_element_scalar_exact (incomp_lift hinc "/@xml:lang" "/language")
      (by rw [stab2 _ (pre_append s _)]; exact hx)
      (by
        rw [stab2 _ (pre_trans (pre_append s "/@xml:lang")
          (pre_append (s ++ "/@xml:lang") "/@rdf:resource"))]
        exact hxr)
      h3
    -- step 4 writes the @rdf:resource value to dest, touching
    -- dest/language in no way since its own variants are absent
    have hinc4 : incomp (s ++ "/@rdf:resource") d := by
      have := incomp_lift hinc "/@rdf:resource" ""
      rwa [str_append_empty] at this
    have hpre4 : pre s (s ++ "/@rdf:resource") = true := pre_append s _
    have habs : ∀ t : String,
        pre (s ++ "/@rdf:resource") (s ++ "/@rdf:resource" ++ t) = true :=
      fun t => pre_append _ t
    have hstep4 := copy_element_scalar_exact2 hinc4
      (by rw [stab3 _ hpre4]; exact hr)
      (by rw [stab3 _ (pre_trans hpre4 (habs "/language"))]; exact hq1)
      (by rw [stab3 _ (pre_trans hpre4 (habs "/@lang"))]; exact hq2)
      (by rw [stab3 _ (pre_trans hpre4 (habs "/@xml:lang"))]; exact hq3)
      (by rw [stab3 _ (pre_trans hpre4 (habs "/@rdf:resource"))]; exact hq4)
      h4
    constructor
    · rw [hstep4.2 (d ++ "/language") (append_right_ne d "/language" (by decide))
        (pre_append_left_ne (d ++ "/language") "." (by decide))
        (by rw [pre_append_cancel_str]; decide)]
      exact hstep3.1
    · exact hstep4.1

/-- The C4 witness input record. -/
def rC4w : Record :=
  [("x", Val.str "t"), ("x/language", Val.str "en"), ("x/@lang", Val.str "fi"),
   ("x/@xml:lang", Val.str "sv"), ("x/@rdf:resource", Val.str "http://ex")]

/-- The C4 witness output record. -/
def rC4wOut : Record :=
  rC4w ++ [("d", Val.str "http://ex"), ("d/language", Val.str "sv")]

/-- Witness for C4 amended at a concrete record: `dest/language` ends
as the `@xml:lang` value and `dest` as the `@rdf:resource` value. -/
theorem c4_witness :
    copy_element 5 none "x" "d" rC4w = .ok rC4wOut ∧
    lookup rC4wOut ("d" ++ "/language") = some (Val.str "sv") ∧
    lookup rC4wOut "d" = some (Val.str "http://ex") := by
  refine ⟨?_, ?_, ?_⟩
  · rfl
  · exact (c4_amended_language_resource 5 "x" "d" rC4w rC4wOut
      (Val.str "t") (Val.str "en") (Val.str "fi") (Val.str "sv") (Val.str "http://ex")
      (by decide) (by decide) (by decide) (by decide) (by decide) (by decide) (by decide)
      (by decide) (by decide) (by decide) (by decide) (by rfl)).1
  · exact (c4_amended_language_resource 5 "x" "d" rC4w rC4wOut
      (Val.str "t") (Val.str "en") (Val.str "fi") (Val.str "sv") (Val.str "http://ex")
      (by decide) (by decide) (by decide) (by decide) (by decide) (by decide) (by decide)
      (by decide) (by decide) (by decide) (by decide) (by rfl)).2

/-! ### Callback invocation counting (claim C5) -/

/-- Result of an instrumented projection: the record plus the list of
`(source, dest)` argument pairs the callback was invoked with. -/
abbrev TRes := Except CErr (Record × List (String × String))

/-- Sequencing a plain copy step before an instrumented continuation. -/
def andThenC (x : CRes) (f : Record → TRes) : TRes :=
  match x with
  | .error e => .error e
  | .ok r => f r

/-- The instrumented indexed loop, concatenating the callback
invocations of the successive instances. -/
def calls_loop (step : String → String → Record → TRes) (s d : String) :
    List Nat → Record → TRes
  | [], r => .ok (r, [])
  | i :: is, r =>
    match step (s ++ "." ++ natStr i) (d ++ "." ++ natStr i) r with
    | .error e => .error e
    | .ok (r', cs) =>
      match calls_loop step s d is r' with
      | .error e => .error e
      | .ok (r'', cs') => .ok (r'', cs ++ cs')

/-- `copy_element` with callback `f`, additionally recording the
argument pairs of every invocation of `f` (the call site on line 66 of
the source, reached once per matched scalar element).  The
record-transforming behavior agrees with `copy_element` — see
`copy_calls_fst`. -/
def copy_calls : Nat → CbF → String → String → Record → TRes
  | 0, _, _, _, _ => .error .fuelOut
  | n + 1, f, s, d, r =>
    match lookup r s with
    | some v =>
      andThenC (copy_element n none (s ++ "/language") (d ++ "/language") (dset r d v)) (fun r1 =>
        andThenC (copy_element n none (s ++ "/@lang") (d ++ "/language") r1) (fun r2 =>
          andThenC (copy_element n none (s ++ "/@xml:lang") (d ++ "/language") r2) (fun r3 =>
            andThenC (copy_element n none (s ++ "/@rdf:resource") d r3) (fun r4 =>
              match f s d r4 with
              | .error e => .error e
              | .ok r5 => .ok (r5, [(s, d)])))))
    | none =>
      match lookup r (s ++ ".count") with
      | none => .ok (r, [])
      | some c =>
        if falsy c then .ok (r, [])
        else
          match c with
          | .num cnt =>
            calls_loop (copy_calls n f) s d (List.range cnt) (dset r (d ++ ".count") c)
          | _ => .error .typeErr

theorem andThenC_ok {x : CRes} {f : Record → TRes} {p : Record × List (String × String)}
    (h : andThenC x f = .ok p) : ∃ rm, x = .ok rm ∧ f rm = .ok p := by
  cases x with
  | error e => exact absurd h (by simp [andThenC])
  | ok rm => exact ⟨rm, rfl, h⟩

theorem copy_calls_scalar {m : Nat} {f : CbF} {s d : String} {r : Record} {v : Val}
    (hv : lookup r s = some v) :
    copy_calls (m + 1) f s d r =
      andThenC (copy_element m none (s ++ "/language") (d ++ "/language") (dset r d v)) (fun r1 =>
        andThenC (copy_element m none (s ++ "/@lang") (d ++ "/language") r1) (fun r2 =>
          andThenC (copy_element m none (s ++ "/@xml:lang") (d ++ "/language") r2) (fun r3 =>
            andThenC (copy_element m none (s ++ "/@rdf:resource") d r3) (fun r4 =>
              match f s d r4 with
              | .error e => .error e
              | .ok r5 => .ok (r5, [(s, d)])))))  := by
  rw [copy_calls, hv]

theorem copy_calls_absent {m : Nat} {f : CbF} {s d : String} {r : Record}
    (h1 : lookup r s = none) (h2 : lookup r (s ++ ".count") = none) :
    copy_calls (m + 1) f s d r = .ok (r, []) := by
  rw [copy_calls, h1, h2]

theorem copy_calls_falsy {m : Nat} {f : CbF} {s d : String} {r : Record} {c : Val}
    (h1 : lookup r s = none) (h2 : lookup r (s ++ ".count") = some c)
    (h3 : falsy c = true) :
    copy_calls (m + 1) f s d r = .ok (r, []) := by
  rw [copy_calls, h1, h2]
  simp [h3]

theorem copy_calls_count {m : Nat} {f : CbF} {s d : String} {r : Record} {cnt : Nat}
    (h1 : lookup r s = none) (h2 : lookup r (s ++ ".count") = some (Val.num cnt))
    (h3 : cnt ≠ 0) :
    copy_calls (m + 1) f s d r =
      calls_loop (copy_calls m f) s d (List.range cnt)
        (dset r (d ++ ".count") (Val.num cnt)) := by
  rw [copy_calls, h1, h2]
  have hf : falsy (Val.num cnt) = false := by
    cases cnt with
    | zero => exact absurd rfl h3
    | succ k => rfl
  simp [hf]

theorem copy_calls_tyerr {m : Nat} {f : CbF} {s d : String} {r : Record} {c : Val}
    (h1 : lookup r s = none) (h2 : lookup r (s ++ ".count") = some c)
    (h3 : falsy c = false) (h4 : ∀ cnt, c ≠ Val.num cnt) :
    copy_calls (m + 1) f s d r = .error .typeErr := by
  cases c with
  | num cnt => exact absurd rfl (h4 cnt)
  | str t =>
    rw [copy_calls, h1, h2]
    simp [h3]
  | null => simp [falsy] at h3

theorem calls_loop_fst {step : String → String → Record → TRes}
    {stepE : String → String → Record → CRes}
    (hfst : ∀ s' d' r, (step s' d' r).map Prod.fst = stepE s' d' r) (s d : String) :
    ∀ (is : List Nat) (r : Record),
      (calls_loop step s d is r).map Prod.fst = copyLoop stepE s d is r := by
  intro is
  induction is with
  | nil => intro r; rfl
  | cons i is ih =>
    intro r
    have hsE : stepE (s ++ "." ++ natStr i) (d ++ "." ++ natStr i) r =
        (step (s ++ "." ++ natStr i) (d ++ "." ++ natStr i) r).map Prod.fst :=
      (hfst _ _ _).symm
    cases hx : step (s ++ "." ++ natStr i) (d ++ "." ++ natStr i) r with
    | error e => simp [calls_loop, copyLoop, hsE, hx, andThen, Except.map]
    | ok p =>
      obtain ⟨rm, cs⟩ := p
      have hihm := ih rm
      cases hy : calls_loop step s d is rm with
      | error e =>
        rw [hy] at hihm
        simp only [Except.map] at hihm
        simp [calls_loop, copyLoop, hsE, hx, hy, andThen, Except.map, ← hihm]
      | ok q =>
        obtain ⟨r2, cs2⟩ := q
        rw [hy] at hihm
        simp only [Except.map] at hihm
        simp [calls_loop, copyLoop, hsE, hx, hy, andThen, Except.map, ← hihm]

/-- The instrumented copier computes exactly the record that
`copy_element` computes with the same callback. -/
theorem copy_calls_fst :
    ∀ (n : Nat) (f : CbF) (s d : String) (r : Record),
      (copy_calls n f s d r).map Prod.fst = copy_element n (some f) s d r := by
  intro n
  induction n with
  | zero => intro f s d r; rfl
  | succ n ih =>
    intro f s d r
    cases hls : lookup r s with
    | some v =>
      rw [copy_calls_scalar hls, copy_element_scalar hls]
      cases h1 : copy_element n none (s ++ "/language") (d ++ "/language") (dset r d v) with
      | error e => simp [h1, andThenC, andThen, Except.map]
      | ok r1 =>
        simp only [h1, andThenC, andThen]
        cases h2 : copy_element n none (s ++ "/@lang") (d ++ "/language") r1 with
        | error e => simp [h2, Except.map]
        | ok r2 =>
          simp only [h2]
          cases h3 : copy_element n none (s ++ "/@xml:lang") (d ++ "/language") r2 with
          | error e => simp [h3, Except.map]
          | ok r3 =>
            simp only [h3]
            cases h4 : copy_element n none (s ++ "/@rdf:resource") d r3 with
            | error e => simp [h4, Except.map]
            | ok r4 =>
              simp only [h4]
              cases hf : f s d r4 with
              | error e => simp [hf, cbRun, Except.map]
              | ok r5 => simp [hf, cbRun, Except.map]
    | none =>
      cases hlc : lookup r (s ++ ".count") with
      | none =>
        rw [copy_calls_absent hls hlc, copy_element_absent hls hlc]
        rfl
      | some c =>
        by_cases hfal : falsy c = true
        · rw [copy_calls_falsy hls hlc hfal, copy_element_falsy hls hlc hfal]
          rfl
        · cases c with
          | str t =>
            rw [copy_calls_tyerr hls hlc (by simpa using hfal) (fun cnt h => by cases h),
              copy_element_tyerr hls hlc (by simpa using hfal) (fun cnt h => by cases h)]
            rfl
          | null => simp [falsy] at hfal
          | num cnt =>
            have hcnt : cnt ≠ 0 := fun hc => by subst hc; exact hfal rfl
            rw [copy_calls_count hls hlc hcnt, copy_element_count hls hlc hcnt]
            exact calls_loop_fst (fun s' d' r' => ih f s' d' r') s d (List.range cnt) _

theorem copy_calls_scalar_calls {m : Nat} {f : CbF} {s' d' : String} {r rm : Record}
    {cs : List (String × String)} {v : Val}
    (hv : lookup r s' = some v)
    (h : copy_calls m f s' d' r = .ok (rm, cs)) : cs = [(s', d')] := by
  cases m with
  | zero => exact absurd h (by simp [copy_calls])
  | succ m =>
    rw [copy_calls_scalar hv] at h
    obtain ⟨r1, h1, h⟩ := andThenC_ok h
    obtain ⟨r2, h2, h⟩ := andThenC_ok h
    obtain ⟨r3, h3, h⟩ := andThenC_ok h
    obtain ⟨r4, h4, h⟩ := andThenC_ok h
    cases hf : f s' d' r4 with
    | error e =>
      rw [hf] at h
      exact absurd h (by simp)
    | ok r5 =>
      rw [hf] at h
      injection h with h'
      injection h' with _ hb
      exact hb.symm

theorem calls_loop_scalar {m : Nat} {f : CbF} {s d : String}
    (hmono : cbMono (some f)) :
    ∀ (is : List Nat) (r0 r' : Record) (cs : List (String × String)),
      (∀ i ∈ is, (lookup r0 (s ++ "." ++ natStr i)).isSome = true) →
      calls_loop (copy_calls m f) s d is r0 = .ok (r', cs) →
      cs = is.map (fun i => (s ++ "." ++ natStr i, d ++ "." ++ natStr i)) := by
  intro is
  induction is with
  | nil =>
    intro r0 r' cs _ h
    injection h with h'
    injection h' with _ hb
    exact hb.symm
  | cons i is ih =>
    intro r0 r' cs hpres h
    cases hx : copy_calls m f (s ++ "." ++ natStr i) (d ++ "." ++ natStr i) r0 with
    | error e =>
      simp only [calls_loop, hx] at h
      exact Except.noConfusion h
    | ok p =>
      obtain ⟨rm, csi⟩ := p
      simp only [calls_loop, hx] at h
      cases hy : calls_loop (copy_calls m f) s d is rm with
      | error e =>
        simp only [hy] at h
        exact Except.noConfusion h
      | ok q =>
        obtain ⟨r2, cs2⟩ := q
        simp only [hy] at h
        injection h with h'
        injection h' with _ hcs
        have hv : ∃ v, lookup r0 (s ++ "." ++ natStr i) = some v := by
          have hp := hpres i (List.mem_cons_self _ _)
          cases hz : lookup r0 (s ++ "." ++ natStr i) with
          | none => rw [hz] at hp; exact Bool.noConfusion hp
          | some v => exact ⟨v, rfl⟩
        obtain ⟨v, hv⟩ := hv
        have hcsi : csi = [(s ++ "." ++ natStr i, d ++ "." ++ natStr i)] :=
          copy_calls_scalar_calls hv hx
        have hstepE : copy_element m (some f) (s ++ "." ++ natStr i)
            (d ++ "." ++ natStr i) r0 = .ok rm := by
          have hmap := copy_calls_fst m f (s ++ "." ++ natStr i) (d ++ "." ++ natStr i) r0
          rw [hx] at hmap
          simp only [Except.map] at hmap
          exact hmap.symm
        have hmono_step := copy_element_mono m (some f) _ _ _ _ hmono hstepE
        have hpres' : ∀ j ∈ is, (lookup rm (s ++ "." ++ natStr j)).isSome = true :=
          fun j hj => hmono_step _ (hpres j (List.mem_cons_of_mem _ hj))
        have hrec := ih rm r2 cs2 hpres' hy
        rw [← hcs, hcsi, hrec]
        rfl

/-- Claim C5 (amended): for a repeated element whose `N` declared
instances are all present as scalar keys, and any presence-monotone
callback (all callbacks of this module only add keys), a successful
`copy_element` run invokes the callback exactly `N` times, once per
index in order, with arguments `(source.i, dest.i, record)`.  When an
instance key is absent, the callback is simply not invoked for that
index — see the counterexample. -/
theorem c5_callback_invocations_amended (n : Nat) (f : CbF) (s d : String)
    (r r' : Record) (cs : List (String × String)) (N : Nat)
    (hmono : ∀ s' d' rr rr', f s' d' rr = .ok rr' → presMono rr rr')
    (hs : lookup r s = none)
    (hc : lookup r (s ++ ".count") = some (Val.num N))
    (hN : 0 < N)
    (hinst : ∀ i, i < N → (lookup r (s ++ "." ++ natStr i)).isSome = true)
    (hsucc : copy_calls n f s d r = .ok (r', cs)) :
    cs = (List.range N).map (fun i => (s ++ "." ++ natStr i, d ++ "." ++ natStr i)) := by
  cases n with
  | zero => exact absurd hsucc (by simp [copy_calls])
  | succ m =>
    rw [copy_calls_count hs hc (by omega)] at hsucc
    apply calls_loop_scalar hmono (List.range N) _ r' cs _ hsucc
    intro i hi
    exact presMono_dset r (d ++ ".count") (Val.num N) _ (hinst i (List.mem_range.mp hi))

/-- Claim C5 counterexample: a record declaring `s.count = 1` but
lacking the instance key `s.0`: the projection succeeds but the
callback is invoked zero times instead of once. -/
theorem c5_counterexample :
    copy_calls 3 (fun _ _ r => .ok r) "s" "d" [("s.count", Val.num 1)] =
      .ok ([("s.count", Val.num 1), ("d.count", Val.num 1)], []) ∧
    ([] : List (String × String)).length = 0 := by
  refine ⟨?_, rfl⟩
  rfl

/-- Witness for C5 amended at a concrete record with its one instance
present: the callback is invoked exactly once, with the indexed
source/dest pair. -/
theorem c5_witness :
    copy_calls 3 (fun _ _ r => .ok r) "s" "d"
      [("s.count", Val.num 1), ("s.0", Val.str "v")] =
      .ok ([("s.count", Val.num 1), ("s.0", Val.str "v"),
            ("d.count", Val.num 1), ("d.0", Val.str "v")], [("s.0", "d.0")]) ∧
    [(("s.0" : String), ("d.0" : String))] =
      (List.range 1).map (fun i => ("s" ++ "." ++ natStr i, "d" ++ "." ++ natStr i)) := by
  refine ⟨?_, ?_⟩
  · rfl
  · exact c5_callback_invocations_amended 3 (fun _ _ r => .ok r) "s" "d"
      [("s.count", Val.num 1), ("s.0", Val.str "v")]
      [("s.count", Val.num 1), ("s.0", Val.str "v"),
       ("d.count", Val.num 1), ("d.0", Val.str "v")]
      [("s.0", "d.0")] 1
      (fun s' d' rr rr' h => by
        injection h with h'
        exact h' ▸ presMono_refl rr)
      (by decide) (by decide) (by decide)
      (fun i hi => by interval_cases i; decide)
      (by rfl)
